import Mathlib

/-!
Verification of the container core of calibre
(src/calibre/ebooks/oeb/polish/container.py) against its specification.

The development is a shallow embedding of the Python source:

* paths are modelled as lists of POSIX segments (the working directory
  `root` is such a list); `os.path.normpath` on absolute paths becomes
  `normAbs`, `os.path.relpath` becomes `relSegs`;
* the filesystem is modelled with explicit inodes so that hard-link
  counts (`nlinks_file`) and copy-on-write decoupling are meaningful;
* the parsed OPF tree is modelled as a structured document (`OPFDoc`);
  the whitespace bookkeeping of `insert_into_xml` and `remove_from_xml`
  only affects pretty output and is not modelled;
* external collaborators that are not part of this repository
  (the MIME guesser, `urlquote`/`urlunquote` from `calibre.ebooks.oeb.base`,
  the Python 2 `urlparse` module, `serialize`, `hashlib.sha1`,
  `uuid.UUID`, `xml_to_unicode`, `decrypt_font`) are either modelled from
  the specification of their behaviour or passed as explicit function
  parameters;
* Python exceptions become `Except PyErr`; an error result does not carry
  the partially mutated state (the theorems below only reason about
  successful runs and about which error kind is raised).
-/

namespace Calibre

/-! ## Association-list helpers (model of Python dicts keyed by strings) -/

/-- Lookup in an association list; models `d.get(k)` / `d[k]`. -/
def alookup {κ α : Type} [DecidableEq κ] : List (κ × α) → κ → Option α
  | [], _ => none
  | (k2, v) :: rest, k => if k2 = k then some v else alookup rest k

/-- Remove every binding of a key; models `d.pop(k, None)`. -/
def aerase {κ α : Type} [DecidableEq κ] (l : List (κ × α)) (k : κ) : List (κ × α) :=
  l.filter (fun p => p.1 ≠ k)

/-- Overwrite the binding of a key; models `d[k] = v`. -/
def ainsert {κ α : Type} [DecidableEq κ] (l : List (κ × α)) (k : κ) (v : α) : List (κ × α) :=
  (k, v) :: aerase l k

theorem alookup_ainsert {κ α : Type} [DecidableEq κ] (l : List (κ × α)) (k : κ) (v : α) :
    alookup (ainsert l k v) k = some v := by
  simp [ainsert, alookup]

theorem alookup_aerase {κ α : Type} [DecidableEq κ] (l : List (κ × α)) (k : κ) :
    alookup (aerase l k) k = none := by
  induction l with
  | nil => rfl
  | cons p rest ih =>
    by_cases hp : p.1 = k
    · simpa [aerase, List.filter_cons, hp] using ih
    · simpa [aerase, List.filter_cons, hp, alookup] using ih

theorem alookup_aerase_ne {κ α : Type} [DecidableEq κ] (l : List (κ × α)) (k k2 : κ)
    (h : k ≠ k2) : alookup (aerase l k) k2 = alookup l k2 := by
  induction l with
  | nil => rfl
  | cons p rest ih =>
    obtain ⟨pk, pv⟩ := p
    by_cases hp : pk = k
    · have hp2 : pk ≠ k2 := by rw [hp]; exact h
      have e1 : aerase ((pk, pv) :: rest) k = aerase rest k := by
        simp [aerase, List.filter_cons, hp]
      have e2 : alookup ((pk, pv) :: rest) k2 = alookup rest k2 := by
        simp [alookup, hp2]
      rw [e1, e2, ih]
    · have e1 : aerase ((pk, pv) :: rest) k = (pk, pv) :: aerase rest k := by
        simp [aerase, List.filter_cons, hp]
      rw [e1]
      by_cases h2 : pk = k2
      · simp [alookup, h2]
      · simp [alookup, h2, ih]

theorem alookup_ainsert_ne {κ α : Type} [DecidableEq κ] (l : List (κ × α)) (k k2 : κ) (v : α)
    (h : k ≠ k2) : alookup (ainsert l k v) k2 = alookup l k2 := by
  simp only [ainsert, alookup, if_neg h]
  exact alookup_aerase_ne l k k2 h

/-! ## Splitting and joining on a separator character

These model Python `str.split(sep)` (for a single-character separator)
and `sep.join`, working on `List Char` so that induction is convenient. -/

/-- Split a character list at every occurrence of `c`; models
`s.split(c)`, in particular the empty list yields one empty piece. -/
def splitChar (c : Char) : List Char → List (List Char)
  | [] => [[]]
  | a :: rest =>
    match splitChar c rest with
    | [] => [[]]
    | s :: ss => if a = c then [] :: s :: ss else (a :: s) :: ss

/-- Join character lists with separator `c`; models `c.join(pieces)`. -/
def joinChar (c : Char) : List (List Char) → List Char
  | [] => []
  | [s] => s
  | s :: ss => s ++ c :: joinChar c ss

theorem splitChar_ne_nil (c : Char) (l : List Char) : splitChar c l ≠ [] := by
  cases l with
  | nil => simp [splitChar]
  | cons a rest =>
    simp only [splitChar]
    cases splitChar c rest with
    | nil => simp
    | cons s ss =>
      by_cases h : a = c <;> simp [h]

theorem joinChar_splitChar (c : Char) (l : List Char) : joinChar c (splitChar c l) = l := by
  induction l with
  | nil => rfl
  | cons a rest ih =>
    rcases hs : splitChar c rest with _ | ⟨s, ss⟩
    · exact absurd hs (splitChar_ne_nil c rest)
    · rw [hs] at ih
      simp only [splitChar]
      rw [hs]
      show joinChar c (if a = c then [] :: s :: ss else (a :: s) :: ss) = a :: rest
      by_cases h : a = c
      · subst h
        rw [if_pos rfl]
        cases ss with
        | nil => simpa [joinChar] using ih
        | cons t ts => simpa [joinChar] using ih
      · rw [if_neg h]
        cases ss with
        | nil => simpa [joinChar] using ih
        | cons t ts => simpa [joinChar] using ih

theorem splitChar_of_not_mem (c : Char) (s : List Char) (h : c ∉ s) :
    splitChar c s = [s] := by
  induction s with
  | nil => rfl
  | cons a t ih =>
    have ha : a ≠ c := by intro hc; exact h (by simp [hc])
    have ht : c ∉ t := by intro hc; exact h (by simp [hc])
    simp only [splitChar]
    rw [ih ht]
    show (if a = c then [[], t] else [a :: t]) = [a :: t]
    rw [if_neg ha]

theorem splitChar_append_sep (c : Char) (s rest : List Char) (h : c ∉ s) :
    splitChar c (s ++ c :: rest) = s :: splitChar c rest := by
  induction s with
  | nil =>
    rcases hs : splitChar c rest with _ | ⟨u, us⟩
    · exact absurd hs (splitChar_ne_nil c rest)
    · have key : splitChar c ([] ++ c :: rest)
          = match splitChar c rest with
            | [] => [[]]
            | s :: ss => if c = c then [] :: s :: ss else (c :: s) :: ss := rfl
      rw [key, hs]
      simp
  | cons a t ih =>
    have ha : a ≠ c := by intro hc; exact h (by simp [hc])
    have ht : c ∉ t := by intro hc; exact h (by simp [hc])
    have ihr := ih ht
    have key : splitChar c ((a :: t) ++ c :: rest)
        = match splitChar c (t ++ c :: rest) with
          | [] => [[]]
          | s :: ss => if a = c then [] :: s :: ss else (a :: s) :: ss := rfl
    rw [key, ihr]
    show (if a = c then [] :: t :: splitChar c rest else (a :: t) :: splitChar c rest)
        = (a :: t) :: splitChar c rest
    rw [if_neg ha]

theorem splitChar_joinChar (c : Char) (ll : List (List Char)) (hne : ll ≠ [])
    (hfree : ∀ s ∈ ll, c ∉ s) : splitChar c (joinChar c ll) = ll := by
  induction ll with
  | nil => exact absurd rfl hne
  | cons s ss ih =>
    have hsfree : c ∉ s := hfree s (by simp)
    cases ss with
    | nil => simpa [joinChar] using splitChar_of_not_mem c s hsfree
    | cons t ts =>
      have ihs : splitChar c (joinChar c (t :: ts)) = t :: ts :=
        ih (by simp) (fun u hu => hfree u (by simp [hu]))
      have step : joinChar c (s :: t :: ts) = s ++ c :: joinChar c (t :: ts) := rfl
      rw [step, splitChar_append_sep c s _ hsfree, ihs]

/-! ## String-level wrappers -/

/-- Segments of a name or relative path: `s.split('/')`. -/
def splitSegs (s : String) : List String :=
  (splitChar '/' s.data).map String.mk

/-- Join segments with `/`. -/
def joinSegs (l : List String) : String :=
  ⟨joinChar '/' (l.map String.data)⟩

theorem joinSegs_splitSegs (s : String) : joinSegs (splitSegs s) = s := by
  cases s with
  | mk data =>
    simp only [joinSegs, splitSegs, List.map_map]
    have h1 : (String.data ∘ String.mk) = (id : List Char → List Char) := funext fun _ => rfl
    rw [h1, List.map_id, joinChar_splitChar]

theorem splitSegs_joinSegs (l : List String) (hne : l ≠ [])
    (hfree : ∀ s ∈ l, '/' ∉ s.data) : splitSegs (joinSegs l) = l := by
  simp only [joinSegs, splitSegs]
  rw [splitChar_joinChar]
  · rw [List.map_map]
    have h1 : (String.mk ∘ String.data) = (id : String → String) := funext fun s => rfl
    rw [h1, List.map_id]
  · simpa using hne
  · intro s hs
    simp only [List.mem_map] at hs
    obtain ⟨t, ht, rfl⟩ := hs
    exact hfree t ht

/-! ## Percent-encoding codec

Modelled from the spec: `urlquote` and `urlunquote` live in
`calibre.ebooks.oeb.base`, which is not part of this repository slice.
The spec says hrefs are percent-encoded over the URL path character set,
segment-preserving (safe characters: unreserved characters and the
separator `/`), and that `href_to_name` percent-decodes the path.
Non-ASCII characters pass through unchanged (IRI-style quoting). -/

/-- Safe characters that `urlquote` leaves unencoded. -/
def isSafeChar (c : Char) : Bool :=
  c.isAlphanum || c = '_' || c = '.' || c = '-' || c = '~' || c = '/' || c.toNat ≥ 128

/-- Lowercase hex digit of a value below 16 (the `%02x` format). -/
def hexDigit (n : Nat) : Char :=
  if n < 10 then Char.ofNat (48 + n) else Char.ofNat (87 + n)

/-- Value of a hex digit character, if it is one. -/
def unhex? (c : Char) : Option Nat :=
  if 48 ≤ c.toNat ∧ c.toNat ≤ 57 then some (c.toNat - 48)
  else if 97 ≤ c.toNat ∧ c.toNat ≤ 102 then some (c.toNat - 87)
  else if 65 ≤ c.toNat ∧ c.toNat ≤ 70 then some (c.toNat - 55)
  else none

/-- Quote a single character: safe characters pass, others become a
percent escape of their (ASCII) value. -/
def quoteChar (c : Char) : List Char :=
  if isSafeChar c then [c]
  else ['%', hexDigit (c.toNat / 16 % 16), hexDigit (c.toNat % 16)]

/-- Modelled from the spec: `urlquote` percent-encodes URL-path-unsafe
characters, preserving `/` between segments. -/
def urlquote (s : String) : String :=
  ⟨s.data.flatMap quoteChar⟩

/-- Percent-decoding at character level, fuelled so the recursion is
structural: a `%` followed by two hex digits becomes the encoded
character, anything else passes through. -/
def unquoteCharsF : Nat → List Char → List Char
  | _, [] => []
  | 0, l => l
  | fuel + 1, c :: rest =>
    if c = '%' then
      match rest with
      | a :: b :: rest2 =>
        match unhex? a, unhex? b with
        | some x, some y => Char.ofNat (16 * x + y) :: unquoteCharsF fuel rest2
        | _, _ => '%' :: unquoteCharsF fuel rest
      | _ => '%' :: unquoteCharsF fuel rest
    else c :: unquoteCharsF fuel rest

/-- Percent-decoding of a character list (enough fuel for the whole
input). -/
def unquoteChars (l : List Char) : List Char :=
  unquoteCharsF l.length l

/-- Modelled from the spec: `urlunquote` percent-decodes an href. -/
def urlunquote (s : String) : String :=
  ⟨unquoteChars s.data⟩

/-! ## The Python 2 urlparse model

`href_to_name` calls `urlparse(href)` and examines `scheme` and `path`.
The `urlparse` module is the Python standard library (an external
collaborator); the model follows its documented scheme/netloc/fragment/
query/params splitting, including the quirks of the 2.7 implementation:
the scheme is recognised only when the text before the first `:` is made
of scheme characters and the remainder is not purely digits (with a fast
path that skips the digit check when the prefix is exactly `http`), and
parameters are split off the last path segment for scheme-less URLs. -/

/-- Characters allowed in a URL scheme. -/
def isSchemeChar (c : Char) : Bool :=
  c.isAlpha || c.isDigit || c = '+' || c = '-' || c = '.'

/-- Split a list at the first occurrence of `c` (the separator is
dropped); `none` when `c` does not occur. -/
def splitFirst (c : Char) : List Char → Option (List Char × List Char)
  | [] => none
  | a :: rest =>
    if a = c then some ([], rest)
    else match splitFirst c rest with
      | none => none
      | some (pre, post) => some (a :: pre, post)

/-- Result record of `urlparse`. -/
structure PUrl where
  scheme : String
  netloc : String
  path : String
  params : String
  query : String
  fragment : String
deriving DecidableEq

/-- Network-location split: take everything up to the next `/`, `?` or
`#` (the `_splitnetloc` helper). -/
def splitNetloc (l : List Char) : List Char × List Char :=
  (l.takeWhile (fun c => !(c = '/' || c = '?' || c = '#')),
   l.dropWhile (fun c => !(c = '/' || c = '?' || c = '#')))

/-- Model of Python 2 `urlsplit` (without the bracket validation of
netlocs, which raises only for IPv6-style literals). -/
def urlsplitModel (url : String) : PUrl :=
  let us := url.data
  let schemeRest : List Char × List Char :=
    match splitFirst ':' us with
    | none => ([], us)
    | some (pre, post) =>
      if pre = [] then ([], us)
      else if pre = "http".data then (pre, post)
      else if pre.all isSchemeChar then
        if post = [] ∨ post.any (fun c => !c.isDigit) then (pre, post) else ([], us)
      else ([], us)
  let scheme := schemeRest.1.map Char.toLower
  let netlocRest : List Char × List Char :=
    if schemeRest.2.take 2 = ['/', '/'] then splitNetloc (schemeRest.2.drop 2)
    else ([], schemeRest.2)
  let fragSplit : List Char × List Char :=
    match splitFirst '#' netlocRest.2 with
    | some (a, b) => (a, b)
    | none => (netlocRest.2, [])
  let querySplit : List Char × List Char :=
    match splitFirst '?' fragSplit.1 with
    | some (a, b) => (a, b)
    | none => (fragSplit.1, [])
  ⟨⟨scheme⟩, ⟨netlocRest.1⟩, ⟨querySplit.1⟩, "", ⟨querySplit.2⟩, ⟨fragSplit.2⟩⟩

/-- Schemes for which `urlparse` splits parameters off the path; the
empty scheme is among them. -/
def usesParams : List String :=
  ["", "ftp", "hdl", "prospero", "http", "imap", "https", "shttp", "rtsp",
   "rtspu", "sip", "sips", "mms", "sftp"]

/-- Piece of the path after the last `/` (whole path when there is no
slash). -/
def afterLastSlash (l : List Char) : List Char :=
  (l.reverse.takeWhile (fun c => !(c = '/'))).reverse

/-- Model of `_splitparams`: parameters are searched only in the last
path segment when the path contains a slash. -/
def splitParamsModel (l : List Char) : List Char × List Char :=
  if l.contains '/' then
    match splitFirst ';' (afterLastSlash l) with
    | none => (l, [])
    | some (a, b) => (l.take (l.length - (afterLastSlash l).length) ++ a, b)
  else match splitFirst ';' l with
    | none => (l, [])
    | some (a, b) => (a, b)

/-- Model of Python 2 `urlparse`: `urlsplit` plus parameter stripping. -/
def urlparseModel (url : String) : PUrl :=
  let r := urlsplitModel url
  if usesParams.contains r.scheme ∧ r.path.data.contains ';' then
    let ps := splitParamsModel r.path.data
    { r with path := ⟨ps.1⟩, params := ⟨ps.2⟩ }
  else r

/-! ## Path model

Absolute filesystem paths are lists of POSIX segments. `normAbs` is
`posixpath.normpath` restricted to absolute paths (where leading `..`
segments are dropped at the root), `relSegs`/`relpathStr` model
`posixpath.relpath` on already-normalised absolute inputs. -/

/-- One step of `normpath`: empty and `.` segments vanish, `..` pops. -/
def normStep (acc : List String) (s : String) : List String :=
  if s = "" ∨ s = "." then acc
  else if s = ".." then acc.dropLast
  else acc ++ [s]

/-- Fold `normStep` starting from an accumulator. -/
def normFrom (acc : List String) (l : List String) : List String :=
  l.foldl normStep acc

/-- Normalise the segments of an absolute path (`posixpath.normpath`). -/
def normAbs (l : List String) : List String :=
  normFrom [] l

/-- A clean segment: what `normpath` leaves untouched. -/
def cleanSeg (s : String) : Prop :=
  s ≠ "" ∧ s ≠ "." ∧ s ≠ ".."

instance (s : String) : Decidable (cleanSeg s) := by
  unfold cleanSeg; infer_instance

/-- Elementwise common prefix length of two segment lists
(`os.path.commonprefix` applied to two split paths). -/
def commonPrefixLen : List String → List String → Nat
  | a :: as, b :: bs => if a = b then commonPrefixLen as bs + 1 else 0
  | _, _ => 0

/-- Relative segments of `path` from `start`
(`posixpath.relpath` before joining). -/
def relSegs (path start : List String) : List String :=
  let i := commonPrefixLen path start
  List.replicate (start.length - i) ".." ++ path.drop i

/-- String form of `posixpath.relpath` (returns `.` for equal paths). -/
def relpathStr (path start : List String) : String :=
  let r := relSegs path start
  if r = [] then "." else joinSegs r

/-! ## The name and href codec (`Container` methods, `self.root = root`) -/

/-- Method `Container.name_to_abspath`: join the root with the segments
of the name and normalise (`os.path.abspath(os.path.join(...))`). -/
def name_to_abspath (root : List String) (name : String) : List String :=
  normAbs (root ++ splitSegs name)

/-- Method `Container.abspath_to_name`: relativise against `root`
(the resulting relative path uses `/` separators). -/
def abspath_to_name (root : List String) (fullpath : List String) : String :=
  relpathStr fullpath root

/-- Method `Container.href_to_name`: parse the href, refuse schemes,
empty and absolute paths, percent-decode, resolve against the directory
of `base` (or `root`) and relativise. `none` is the no-name sentinel. -/
def href_to_name (root : List String) (href : String) (base : Option String) : Option String :=
  let basedir : List String :=
    match base with
    | none => root
    | some b => (name_to_abspath root b).dropLast
  let purl := urlparseModel href
  if purl.scheme ≠ "" ∨ purl.path = "" ∨ purl.path.data.head? = some '/' then
    none
  else
    let decoded := urlunquote purl.path
    let fullpath := normAbs (basedir ++ splitSegs decoded)
    some (abspath_to_name root fullpath)

/-- Method `Container.name_to_href`: relativise the absolute path of
`name` against the directory of `base` (or `root`) and percent-quote. -/
def name_to_href (root : List String) (name : String) (base : Option String) : String :=
  let fullpath := name_to_abspath root name
  let basepath : List String :=
    match base with
    | none => root
    | some b => (name_to_abspath root b).dropLast
  urlquote (relpathStr fullpath basepath)

/-- A valid name in the sense of the data model: `/`-separated with
nonempty segments, none of which is `.` or `..`. -/
def validName (n : String) : Prop :=
  ∀ s ∈ splitSegs n, cleanSeg s

instance (n : String) : Decidable (validName n) := by
  unfold validName; infer_instance

/-- A clean root: a normalised absolute directory. -/
def cleanRoot (root : List String) : Prop :=
  ∀ s ∈ root, cleanSeg s

instance (root : List String) : Decidable (cleanRoot root) := by
  unfold cleanRoot; infer_instance

/-! ## Lemmas about the URL splitter -/

theorem splitFirst_of_not_mem (c : Char) (l : List Char) (h : c ∉ l) :
    splitFirst c l = none := by
  induction l with
  | nil => rfl
  | cons a rest ih =>
    have ha : a ≠ c := by intro hc; exact h (by simp [hc])
    have hr : c ∉ rest := by intro hc; exact h (by simp [hc])
    simp only [splitFirst, if_neg ha, ih hr]

/-- On a string with no colon, hash, question mark, and not starting
with a slash, `urlsplit` returns the whole string as the path. -/
theorem urlsplit_plain (s : String) (h1 : ':' ∉ s.data) (h2 : s.data.head? ≠ some '/')
    (h3 : '#' ∉ s.data) (h4 : '?' ∉ s.data) :
    urlsplitModel s = ⟨"", "", s, "", "", ""⟩ := by
  obtain ⟨data⟩ := s
  simp only [String.data] at h1 h2 h3 h4
  have htake : ¬ data.take 2 = ['/', '/'] := by
    intro he
    cases data with
    | nil => simp at he
    | cons a t =>
      apply h2
      have : a = '/' := by
        have := congrArg (List.head? ·) he
        simpa using this
      simp [this]
  unfold urlsplitModel
  dsimp only
  rw [splitFirst_of_not_mem ':' _ h1, if_neg htake,
    splitFirst_of_not_mem '#' _ h3, splitFirst_of_not_mem '?' _ h4]
  rfl

/-- With additionally no semicolon, `urlparse` agrees with `urlsplit`. -/
theorem urlparse_plain (s : String) (h1 : ':' ∉ s.data) (h2 : s.data.head? ≠ some '/')
    (h3 : '#' ∉ s.data) (h4 : '?' ∉ s.data) (h5 : ';' ∉ s.data) :
    urlparseModel s = ⟨"", "", s, "", "", ""⟩ := by
  unfold urlparseModel
  rw [urlsplit_plain s h1 h2 h3 h4]
  have : ¬ (usesParams.contains (PUrl.scheme ⟨"", "", s, "", "", ""⟩)
      ∧ (PUrl.path ⟨"", "", s, "", "", ""⟩).data.contains ';') := by
    intro hc
    exact h5 (by simpa using hc.2)
  rw [if_neg this]

/-! ## Lemmas about the percent codec -/

theorem unhex_hexDigit : ∀ n < 16, unhex? (hexDigit n) = some n := by decide

theorem unquoteCharsF_cons_ne (fuel : Nat) (c : Char) (rest : List Char) (h : c ≠ '%') :
    unquoteCharsF (fuel + 1) (c :: rest) = c :: unquoteCharsF fuel rest := by
  simp only [unquoteCharsF, if_neg h]

theorem unquoteCharsF_percent (fuel : Nat) (a b : Char) (x y : Nat) (rest : List Char)
    (ha : unhex? a = some x) (hb : unhex? b = some y) :
    unquoteCharsF (fuel + 1) ('%' :: a :: b :: rest)
      = Char.ofNat (16 * x + y) :: unquoteCharsF fuel rest := by
  simp only [unquoteCharsF, if_pos rfl, ha, hb]
  rfl

theorem toNat_lt_of_not_safe (c : Char) (h : ¬ isSafeChar c = true) : c.toNat < 128 := by
  unfold isSafeChar at h
  by_contra hc
  exact h (by simp [Nat.le_of_not_lt hc])

theorem unquoteCharsF_quote (l : List Char) :
    ∀ fuel, (l.flatMap quoteChar).length ≤ fuel →
      unquoteCharsF fuel (l.flatMap quoteChar) = l := by
  induction l with
  | nil => intro fuel _; cases fuel <;> rfl
  | cons c rest ih =>
    intro fuel hfuel
    rw [List.flatMap_cons] at hfuel ⊢
    by_cases hs : isSafeChar c
    · have hq : quoteChar c = [c] := by simp [quoteChar, hs]
      have hcp : c ≠ '%' := by
        intro he
        rw [he] at hs
        exact absurd hs (by decide)
      rw [hq] at hfuel ⊢
      simp only [List.singleton_append, List.length_cons] at hfuel ⊢
      cases fuel with
      | zero => omega
      | succ f =>
        rw [unquoteCharsF_cons_ne f c _ hcp, ih f (by omega)]
    · have hq : quoteChar c = ['%', hexDigit (c.toNat / 16 % 16), hexDigit (c.toNat % 16)] := by
        simp [quoteChar, hs]
      have hlt : c.toNat < 128 := toNat_lt_of_not_safe c hs
      have hd1 : c.toNat / 16 % 16 < 16 := Nat.mod_lt _ (by omega)
      have hd2 : c.toNat % 16 < 16 := Nat.mod_lt _ (by omega)
      have hmod : c.toNat / 16 % 16 = c.toNat / 16 := by
        apply Nat.mod_eq_of_lt
        omega
      rw [hq] at hfuel ⊢
      simp only [List.cons_append, List.nil_append, List.length_cons] at hfuel ⊢
      cases fuel with
      | zero => omega
      | succ f =>
        rw [unquoteCharsF_percent f _ _ _ _ _ (unhex_hexDigit _ hd1) (unhex_hexDigit _ hd2),
          ih f (by omega)]
        congr 1
        rw [hmod]
        have : 16 * (c.toNat / 16) + c.toNat % 16 = c.toNat := by omega
        rw [this, Char.ofNat_toNat]

theorem unquote_quote (l : List Char) : unquoteChars (l.flatMap quoteChar) = l := by
  unfold unquoteChars
  exact unquoteCharsF_quote l _ le_rfl

theorem quote_unquote_str (s : String) : urlunquote (urlquote s) = s := by
  obtain ⟨data⟩ := s
  simp only [urlunquote, urlquote]
  rw [unquote_quote]

theorem mem_quoteChar (d c : Char) (h : d ∈ quoteChar c) :
    (isSafeChar c = true ∧ d = c) ∨ d = '%' ∨ ∃ n, n < 16 ∧ d = hexDigit n := by
  unfold quoteChar at h
  by_cases hs : isSafeChar c
  · rw [if_pos hs] at h
    simp at h
    exact Or.inl ⟨hs, h⟩
  · rw [if_neg hs] at h
    simp only [List.mem_cons, List.not_mem_nil, or_false] at h
    rcases h with h | h | h
    · exact Or.inr (Or.inl h)
    · exact Or.inr (Or.inr ⟨_, Nat.mod_lt _ (by omega), h⟩)
    · exact Or.inr (Or.inr ⟨_, Nat.mod_lt _ (by omega), h⟩)

theorem not_mem_quote (d : Char) (hd : ¬ isSafeChar d = true) (hp : d ≠ '%')
    (hx : ∀ n < 16, hexDigit n ≠ d) (l : List Char) :
    d ∉ l.flatMap quoteChar := by
  intro hmem
  rw [List.mem_flatMap] at hmem
  obtain ⟨c, _, hc⟩ := hmem
  rcases mem_quoteChar _ _ hc with ⟨hsafe, rfl⟩ | rfl | ⟨n, hn, rfl⟩
  · exact hd hsafe
  · exact hp rfl
  · exact hx n hn rfl

theorem colon_not_mem_quote (l : List Char) : ':' ∉ l.flatMap quoteChar :=
  not_mem_quote ':' (by decide) (by decide) (by decide) l

theorem hash_not_mem_quote (l : List Char) : '#' ∉ l.flatMap quoteChar :=
  not_mem_quote '#' (by decide) (by decide) (by decide) l

theorem quest_not_mem_quote (l : List Char) : '?' ∉ l.flatMap quoteChar :=
  not_mem_quote '?' (by decide) (by decide) (by decide) l

theorem semi_not_mem_quote (l : List Char) : ';' ∉ l.flatMap quoteChar :=
  not_mem_quote ';' (by decide) (by decide) (by decide) l

theorem quoteChar_slash : quoteChar '/' = ['/'] := by decide

theorem hexDigit_ne_slash : ∀ n < 16, hexDigit n ≠ '/' := by decide

theorem eq_slash_of_slash_mem_quoteChar (c : Char) (h : '/' ∈ quoteChar c) : c = '/' := by
  rcases mem_quoteChar _ _ h with ⟨_, he⟩ | he | ⟨n, hn, he⟩
  · exact he.symm
  · exact absurd he (by decide)
  · exact absurd he.symm (hexDigit_ne_slash n hn)

theorem quote_head_ne_slash (l : List Char) (h : l.head? ≠ some '/') :
    (l.flatMap quoteChar).head? ≠ some '/' := by
  cases l with
  | nil => simp
  | cons c t =>
    rw [List.flatMap_cons]
    have hc : c ≠ '/' := by intro he; exact h (by simp [he])
    by_cases hs : isSafeChar c
    · have hq : quoteChar c = [c] := by simp [quoteChar, hs]
      rw [hq]
      simpa using hc
    · have hq : quoteChar c = ['%', hexDigit (c.toNat / 16 % 16), hexDigit (c.toNat % 16)] := by
        simp [quoteChar, hs]
      rw [hq]
      simp

theorem splitChar_prepend (c : Char) (w X : List Char) (hw : c ∉ w) (s0 : List Char)
    (ss0 : List (List Char)) (hX : splitChar c X = s0 :: ss0) :
    splitChar c (w ++ X) = (w ++ s0) :: ss0 := by
  induction w with
  | nil => simpa using hX
  | cons a u ih =>
    have ha : a ≠ c := by intro hc; exact hw (by simp [hc])
    have hu : c ∉ u := by intro hc; exact hw (by simp [hc])
    have ihr := ih hu
    have key : splitChar c ((a :: u) ++ X)
        = match splitChar c (u ++ X) with
          | [] => [[]]
          | s :: ss => if a = c then [] :: s :: ss else (a :: s) :: ss := rfl
    rw [key, ihr]
    show (if a = c then [] :: (u ++ s0) :: ss0 else (a :: (u ++ s0)) :: ss0)
        = ((a :: u) ++ s0) :: ss0
    rw [if_neg ha]
    rfl

theorem splitChar_flatMap_quote (l : List Char) :
    splitChar '/' (l.flatMap quoteChar) = (splitChar '/' l).map (·.flatMap quoteChar) := by
  induction l with
  | nil => rfl
  | cons c t ih =>
    rcases hs : splitChar '/' t with _ | ⟨s0, ss0⟩
    · exact absurd hs (splitChar_ne_nil _ t)
    rw [hs] at ih
    rw [List.flatMap_cons]
    by_cases hc : c = '/'
    · subst hc
      rw [quoteChar_slash]
      have lhs : splitChar '/' (['/'] ++ t.flatMap quoteChar)
          = [] :: splitChar '/' (t.flatMap quoteChar) := by
        have := splitChar_append_sep '/' [] (t.flatMap quoteChar) (by simp)
        simpa using this
      rw [lhs, ih]
      have rhs : splitChar '/' ('/' :: t) = [] :: splitChar '/' t := by
        have := splitChar_append_sep '/' [] t (by simp)
        simpa using this
      rw [rhs, hs]
      rfl
    · have hnos : '/' ∉ quoteChar c := by
        intro hm
        exact hc (eq_slash_of_slash_mem_quoteChar c hm)
      have lhs := splitChar_prepend '/' (quoteChar c) (t.flatMap quoteChar) hnos
        (s0.flatMap quoteChar) (ss0.map (·.flatMap quoteChar)) (by rw [ih]; rfl)
      rw [lhs]
      have rhs : splitChar '/' (c :: t) = (c :: s0) :: ss0 := by
        have key : splitChar '/' (c :: t)
            = match splitChar '/' t with
              | [] => [[]]
              | s :: ss => if c = '/' then [] :: s :: ss else (c :: s) :: ss := rfl
        rw [key, hs]
        show (if c = '/' then [] :: s0 :: ss0 else (c :: s0) :: ss0) = (c :: s0) :: ss0
        rw [if_neg hc]
      rw [rhs]
      rfl

/-! ## Lemmas about path normalisation and relativisation -/

theorem normFrom_append (acc l1 l2 : List String) :
    normFrom acc (l1 ++ l2) = normFrom (normFrom acc l1) l2 := by
  unfold normFrom
  rw [List.foldl_append]

theorem normFrom_clean (l : List String) (hl : ∀ s ∈ l, cleanSeg s) :
    ∀ acc, normFrom acc l = acc ++ l := by
  induction l with
  | nil => intro acc; simp [normFrom]
  | cons s t ih =>
    intro acc
    obtain ⟨h1, h2, h3⟩ := hl s (by simp)
    have step : normFrom acc (s :: t) = normFrom (normStep acc s) t := rfl
    rw [step]
    have hstep : normStep acc s = acc ++ [s] := by
      unfold normStep
      rw [if_neg (by simp [h1, h2]), if_neg h3]
    rw [hstep, ih (fun u hu => hl u (by simp [hu]))]
    simp

theorem normFrom_no_dotdot (l : List String) (hl : ".." ∉ l) :
    ∀ acc, normFrom acc l = acc ++ l.filter (fun s => !(s = "" || s = ".")) := by
  induction l with
  | nil => intro acc; simp [normFrom]
  | cons s t ih =>
    intro acc
    have hs2 : s ≠ ".." := by intro he; exact hl (by simp [he])
    have ht : ".." ∉ t := by intro he; exact hl (by simp [he])
    have step : normFrom acc (s :: t) = normFrom (normStep acc s) t := rfl
    rw [step]
    by_cases hse : s = "" ∨ s = "."
    · have hstep : normStep acc s = acc := by unfold normStep; rw [if_pos hse]
      have hfil : (s :: t).filter (fun s => !(s = "" || s = "."))
          = t.filter (fun s => !(s = "" || s = ".")) := by
        rw [List.filter_cons]
        have : ¬ (!(s = "" || s = ".")) = true := by
          rcases hse with h | h <;> simp [h]
        rw [if_neg this]
      rw [hstep, hfil, ih ht]
    · have hstep : normStep acc s = acc ++ [s] := by
        unfold normStep
        rw [if_neg hse, if_neg hs2]
      have hfil : (s :: t).filter (fun s => !(s = "" || s = "."))
          = s :: t.filter (fun s => !(s = "" || s = ".")) := by
        rw [List.filter_cons]
        have : (!(s = "" || s = ".")) = true := by
          push_neg at hse
          simp [hse.1, hse.2]
        rw [if_pos this]
      rw [hstep, hfil, ih ht]
      simp

theorem normFrom_replicate_dotdot (root : List String) :
    ∀ (k : Nat) (bdir : List String), k ≤ bdir.length →
      normFrom (root ++ bdir) (List.replicate k "..")
        = root ++ bdir.take (bdir.length - k) := by
  intro k
  induction k with
  | zero => intro bdir _; simp [normFrom]
  | succ k ih =>
    intro bdir hk
    have hbne : bdir ≠ [] := by
      intro he
      rw [he] at hk
      simp at hk
    rw [List.replicate_succ]
    have step : normFrom (root ++ bdir) (".." :: List.replicate k "..")
        = normFrom (normStep (root ++ bdir) "..") (List.replicate k "..") := rfl
    rw [step]
    have hstep : normStep (root ++ bdir) ".." = root ++ bdir.dropLast := by
      unfold normStep
      rw [if_neg (by simp), if_pos rfl]
      exact List.dropLast_append_of_ne_nil root hbne
    rw [hstep, ih bdir.dropLast (by rw [List.length_dropLast]; omega)]
    congr 1
    rw [List.length_dropLast, List.dropLast_eq_take, List.take_take]
    have hle : bdir.length - 1 - k ≤ bdir.length - 1 := by omega
    rw [min_eq_left hle]
    congr 1
    omega

theorem commonPrefixLen_le_left : ∀ x y : List String, commonPrefixLen x y ≤ x.length := by
  intro x
  induction x with
  | nil => intro y; cases y <;> simp [commonPrefixLen]
  | cons a as ih =>
    intro y
    cases y with
    | nil => simp [commonPrefixLen]
    | cons b bs =>
      unfold commonPrefixLen
      by_cases h : a = b
      · rw [if_pos h]
        have := ih bs
        simp
        omega
      · rw [if_neg h]
        simp

theorem commonPrefixLen_le_right : ∀ x y : List String, commonPrefixLen x y ≤ y.length := by
  intro x
  induction x with
  | nil => intro y; cases y <;> simp [commonPrefixLen]
  | cons a as ih =>
    intro y
    cases y with
    | nil => simp [commonPrefixLen]
    | cons b bs =>
      unfold commonPrefixLen
      by_cases h : a = b
      · rw [if_pos h]
        have := ih bs
        simp
        omega
      · rw [if_neg h]
        simp

theorem commonPrefixLen_nil_right (x : List String) : commonPrefixLen x [] = 0 := by
  cases x <;> rfl

theorem commonPrefixLen_append (r : List String) :
    ∀ x y, commonPrefixLen (r ++ x) (r ++ y) = r.length + commonPrefixLen x y := by
  induction r with
  | nil => intro x y; simp
  | cons a t ih =>
    intro x y
    have step : commonPrefixLen ((a :: t) ++ x) ((a :: t) ++ y)
        = if a = a then commonPrefixLen (t ++ x) (t ++ y) + 1 else 0 := rfl
    rw [step, if_pos rfl, ih]
    simp
    omega

theorem take_commonPrefixLen_eq : ∀ x y : List String,
    x.take (commonPrefixLen x y) = y.take (commonPrefixLen x y) := by
  intro x
  induction x with
  | nil => intro y; cases y <;> simp [commonPrefixLen]
  | cons a as ih =>
    intro y
    cases y with
    | nil => simp [commonPrefixLen_nil_right]
    | cons b bs =>
      unfold commonPrefixLen
      by_cases h : a = b
      · rw [if_pos h]
        simp only [List.take_succ_cons]
        rw [ih bs, h]
      · rw [if_neg h]
        simp

theorem relSegs_append_self (root rest : List String) :
    relSegs (root ++ rest) root = rest := by
  have h0 : commonPrefixLen (root ++ rest) root = root.length := by
    have h1 : root ++ ([] : List String) = root := by simp
    calc commonPrefixLen (root ++ rest) root
        = commonPrefixLen (root ++ rest) (root ++ []) := by rw [h1]
      _ = root.length + commonPrefixLen rest [] := commonPrefixLen_append root rest []
      _ = root.length := by rw [commonPrefixLen_nil_right]; omega
  have h2 : (root ++ rest).drop root.length = rest := by
    have h3 := @List.drop_append String root rest 0
    simp only [Nat.add_zero, List.drop_zero] at h3
    exact h3
  unfold relSegs
  dsimp only
  rw [h0, h2]
  simp

/-! ## Facts about segment splitting -/

theorem splitSegs_ne_nil (s : String) : splitSegs s ≠ [] := by
  unfold splitSegs
  intro h
  exact splitChar_ne_nil '/' s.data (by simpa using h)

theorem not_slash_mem_of_mem_splitChar (l : List Char) :
    ∀ s ∈ splitChar '/' l, '/' ∉ s := by
  induction l with
  | nil =>
    intro s hsm
    have he : s = [] := by simpa [splitChar] using hsm
    simp [he]
  | cons a rest ih =>
    rcases hr : splitChar '/' rest with _ | ⟨s0, ss0⟩
    · exact absurd hr (splitChar_ne_nil '/' rest)
    · have ih2 : ∀ s ∈ s0 :: ss0, '/' ∉ s := by rw [← hr]; exact ih
      have key : splitChar '/' (a :: rest)
          = if a = '/' then [] :: s0 :: ss0 else (a :: s0) :: ss0 := by
        simp only [splitChar]
        rw [hr]
      intro s hsm
      rw [key] at hsm
      by_cases ha : a = '/'
      · rw [if_pos ha] at hsm
        rcases List.mem_cons.mp hsm with he | he
        · subst he; simp
        · exact ih2 s he
      · rw [if_neg ha] at hsm
        rcases List.mem_cons.mp hsm with he | he
        · subst he
          intro hmem
          rcases List.mem_cons.mp hmem with h2 | h2
          · exact ha h2.symm
          · exact ih2 s0 (by simp) h2
        · exact ih2 s (by simp [he])

theorem slash_free_of_mem_splitSegs (x : String) :
    ∀ s ∈ splitSegs x, '/' ∉ s.data := by
  intro s hs
  unfold splitSegs at hs
  rw [List.mem_map] at hs
  obtain ⟨t, ht, rfl⟩ := hs
  exact not_slash_mem_of_mem_splitChar x.data t ht

/-! ## Evaluation lemmas for the codec -/

theorem name_to_abspath_clean (root : List String) (n : String)
    (hr : cleanRoot root) (hn : validName n) :
    name_to_abspath root n = root ++ splitSegs n := by
  unfold name_to_abspath normAbs
  rw [normFrom_append, normFrom_clean root hr []]
  simp only [List.nil_append]
  exact normFrom_clean (splitSegs n) hn root

theorem abspath_to_name_append (root rest : List String) (hne : rest ≠ []) :
    abspath_to_name root (root ++ rest) = joinSegs rest := by
  unfold abspath_to_name relpathStr
  dsimp only
  rw [relSegs_append_self root rest, if_neg hne]

/-- Evaluation of `href_to_name` when the href parses trivially (no
scheme, nonempty relative path). -/
theorem href_to_name_eval (root : List String) (h : String) (base : Option String)
    (hparse : urlparseModel h = ⟨"", "", h, "", "", ""⟩)
    (hne : h ≠ "") (hhead : h.data.head? ≠ some '/') :
    href_to_name root h base
      = some (abspath_to_name root (normAbs
          ((match base with
            | none => root
            | some b => (name_to_abspath root b).dropLast) ++ splitSegs (urlunquote h)))) := by
  unfold href_to_name
  rw [hparse]
  dsimp only
  rw [if_neg]
  intro hc
  rcases hc with hc | hc | hc
  · exact hc rfl
  · exact hne hc
  · exact hhead hc

theorem joinChar_head (c : Char) (s : List Char) (ss : List (List Char)) (hs : s ≠ []) :
    (joinChar c (s :: ss)).head? = s.head? := by
  cases s with
  | nil => exact absurd rfl hs
  | cons a u =>
    cases ss with
    | nil => rfl
    | cons t ts => rfl

theorem flatMap_quoteChar_ne_nil (l : List Char) (h : l ≠ []) :
    l.flatMap quoteChar ≠ [] := by
  cases l with
  | nil => exact absurd rfl h
  | cons c t =>
    rw [List.flatMap_cons]
    intro he
    rcases List.append_eq_nil.mp he with ⟨h1, _⟩
    unfold quoteChar at h1
    by_cases hsafe : isSafeChar c
    · rw [if_pos hsafe] at h1
      cases h1
    · rw [if_neg hsafe] at h1
      cases h1

/-! ## Claim C4: the name/href round trip -/

theorem joinChar_ne_nil (c : Char) (s : List Char) (ss : List (List Char)) (hs : s ≠ []) :
    joinChar c (s :: ss) ≠ [] := by
  cases s with
  | nil => exact absurd rfl hs
  | cons a u =>
    cases ss with
    | nil => simp [joinChar]
    | cons t ts => simp [joinChar]

theorem href_name_roundtrip_aux (root : List String) (n b : String)
    (hr : cleanRoot root) (hn : validName n) (hb : validName b) :
    href_to_name root (name_to_href root n (some b)) (some b) = some n := by
  have hnabs : name_to_abspath root n = root ++ splitSegs n := name_to_abspath_clean root n hr hn
  have hbabs : name_to_abspath root b = root ++ splitSegs b := name_to_abspath_clean root b hr hb
  have hbne : splitSegs b ≠ [] := splitSegs_ne_nil b
  have hnne : splitSegs n ≠ [] := splitSegs_ne_nil n
  have hbasedir : (name_to_abspath root b).dropLast = root ++ (splitSegs b).dropLast := by
    rw [hbabs]
    exact List.dropLast_append_of_ne_nil root hbne
  have hbdirclean : ∀ s ∈ (splitSegs b).dropLast, cleanSeg s :=
    fun s hs => hb s (List.mem_of_mem_dropLast hs)
  have hbothclean : ∀ s ∈ root ++ (splitSegs b).dropLast, cleanSeg s := by
    intro s hs
    rcases List.mem_append.mp hs with hs | hs
    · exact hr s hs
    · exact hbdirclean s hs
  have hj1 : commonPrefixLen (splitSegs n) ((splitSegs b).dropLast) ≤ (splitSegs n).length :=
    commonPrefixLen_le_left _ _
  have hj2 : commonPrefixLen (splitSegs n) ((splitSegs b).dropLast)
      ≤ ((splitSegs b).dropLast).length := commonPrefixLen_le_right _ _
  have hrel : relSegs (root ++ splitSegs n) (root ++ (splitSegs b).dropLast)
      = List.replicate (((splitSegs b).dropLast).length
          - commonPrefixLen (splitSegs n) ((splitSegs b).dropLast)) ".."
        ++ (splitSegs n).drop (commonPrefixLen (splitSegs n) ((splitSegs b).dropLast)) := by
    unfold relSegs
    dsimp only
    rw [commonPrefixLen_append root (splitSegs n) ((splitSegs b).dropLast)]
    rw [List.length_append, Nat.add_sub_add_left, List.drop_append]
  have hhref : name_to_href root n (some b)
      = urlquote (relpathStr (root ++ splitSegs n) (root ++ (splitSegs b).dropLast)) := by
    unfold name_to_href
    dsimp only
    rw [hnabs, hbasedir]
  by_cases hrelnil :
      relSegs (root ++ splitSegs n) (root ++ (splitSegs b).dropLast) = []
  · -- the href is "." and n is exactly the directory of b
    have hrelnil2 := hrelnil
    rw [hrel] at hrelnil2
    rcases List.append_eq_nil.mp hrelnil2 with ⟨hrep, hdrop⟩
    have hkzero : ((splitSegs b).dropLast).length
        - commonPrefixLen (splitSegs n) ((splitSegs b).dropLast) = 0 := by
      by_contra hne0
      rw [List.replicate_eq_nil_iff] at hrep
      exact hne0 hrep
    have hjlen : commonPrefixLen (splitSegs n) ((splitSegs b).dropLast)
        = (splitSegs n).length := by
      have := List.drop_eq_nil_iff.mp hdrop
      omega
    have hjblen : commonPrefixLen (splitSegs n) ((splitSegs b).dropLast)
        = ((splitSegs b).dropLast).length := by omega
    have hnb : splitSegs n = (splitSegs b).dropLast := by
      calc splitSegs n
          = (splitSegs n).take (commonPrefixLen (splitSegs n) ((splitSegs b).dropLast)) := by
            rw [hjlen]
            exact (List.take_length _).symm
        _ = ((splitSegs b).dropLast).take
              (commonPrefixLen (splitSegs n) ((splitSegs b).dropLast)) :=
            take_commonPrefixLen_eq _ _
        _ = (splitSegs b).dropLast := by
            rw [hjblen]
            exact List.take_length _
    have hdot : relpathStr (root ++ splitSegs n) (root ++ (splitSegs b).dropLast) = "." := by
      unfold relpathStr
      dsimp only
      rw [if_pos hrelnil]
    rw [hhref, hdot]
    have hquotedot : urlquote "." = "." := by decide
    rw [hquotedot]
    rw [href_to_name_eval root "." (some b) (by decide) (by decide) (by decide)]
    show some (abspath_to_name root (normAbs
        ((name_to_abspath root b).dropLast ++ splitSegs (urlunquote ".")))) = some n
    have hun : splitSegs (urlunquote ".") = ["."] := by decide
    rw [hun, hbasedir]
    have hnorm : normAbs ((root ++ (splitSegs b).dropLast) ++ ["."]) = root ++ splitSegs n := by
      unfold normAbs
      rw [normFrom_append, normFrom_clean (root ++ (splitSegs b).dropLast) hbothclean []]
      simp only [List.nil_append]
      show normStep (root ++ (splitSegs b).dropLast) "." = root ++ splitSegs n
      unfold normStep
      rw [if_pos (Or.inr rfl), hnb]
    rw [hnorm, abspath_to_name_append root (splitSegs n) hnne, joinSegs_splitSegs]
  · -- the general case: a quoted relative path
    have hpieces : ∀ s ∈ relSegs (root ++ splitSegs n) (root ++ (splitSegs b).dropLast),
        s = ".." ∨ s ∈ splitSegs n := by
      intro s hs
      rw [hrel] at hs
      rcases List.mem_append.mp hs with hs | hs
      · exact Or.inl (List.eq_of_mem_replicate hs)
      · exact Or.inr (List.mem_of_mem_drop hs)
    have hslashfree : ∀ s ∈ relSegs (root ++ splitSegs n) (root ++ (splitSegs b).dropLast),
        '/' ∉ s.data := by
      intro s hs
      rcases hpieces s hs with rfl | hs2
      · decide
      · exact slash_free_of_mem_splitSegs n s hs2
    have hnonempty : ∀ s ∈ relSegs (root ++ splitSegs n) (root ++ (splitSegs b).dropLast),
        s.data ≠ [] := by
      intro s hs
      rcases hpieces s hs with rfl | hs2
      · decide
      · intro he
        apply (hn s hs2).1
        cases s with
        | mk d =>
          simp only [String.data] at he
          subst he
          rfl
    rcases hrelcons : relSegs (root ++ splitSegs n) (root ++ (splitSegs b).dropLast)
      with _ | ⟨r0, rrest⟩
    · exact absurd hrelcons hrelnil
    have hrelpath : relpathStr (root ++ splitSegs n) (root ++ (splitSegs b).dropLast)
        = joinSegs (r0 :: rrest) := by
      unfold relpathStr
      dsimp only
      rw [if_neg hrelnil, hrelcons]
    have hJdata : (joinSegs (r0 :: rrest)).data
        = joinChar '/' (r0.data :: rrest.map String.data) := rfl
    have hr0 : r0.data ≠ [] := hnonempty r0 (by rw [hrelcons]; simp)
    have hr0free : '/' ∉ r0.data := hslashfree r0 (by rw [hrelcons]; simp)
    have hJhead : (joinSegs (r0 :: rrest)).data.head? ≠ some '/' := by
      rw [hJdata, joinChar_head '/' r0.data _ hr0]
      cases hd : r0.data with
      | nil => exact absurd hd hr0
      | cons c0 u =>
        simp only [List.head?]
        intro he
        have hc0 : c0 = '/' := by injection he
        apply hr0free
        rw [hd, hc0]
        simp
    have hJne0 : (joinSegs (r0 :: rrest)).data ≠ [] := by
      rw [hJdata]
      exact joinChar_ne_nil '/' r0.data _ hr0
    have hQdata : (urlquote (joinSegs (r0 :: rrest))).data
        = (joinSegs (r0 :: rrest)).data.flatMap quoteChar := rfl
    have hq1 : ':' ∉ (urlquote (joinSegs (r0 :: rrest))).data := by
      rw [hQdata]
      exact colon_not_mem_quote _
    have hq2 : '#' ∉ (urlquote (joinSegs (r0 :: rrest))).data := by
      rw [hQdata]
      exact hash_not_mem_quote _
    have hq3 : '?' ∉ (urlquote (joinSegs (r0 :: rrest))).data := by
      rw [hQdata]
      exact quest_not_mem_quote _
    have hq4 : ';' ∉ (urlquote (joinSegs (r0 :: rrest))).data := by
      rw [hQdata]
      exact semi_not_mem_quote _
    have hqhead : (urlquote (joinSegs (r0 :: rrest))).data.head? ≠ some '/' := by
      rw [hQdata]
      exact quote_head_ne_slash _ hJhead
    have hqne : urlquote (joinSegs (r0 :: rrest)) ≠ "" := by
      intro he
      have hd : (urlquote (joinSegs (r0 :: rrest))).data = [] := by rw [he]
      rw [hQdata] at hd
      exact flatMap_quoteChar_ne_nil _ hJne0 hd
    have hparse := urlparse_plain (urlquote (joinSegs (r0 :: rrest))) hq1 hqhead hq2 hq3 hq4
    rw [hhref, hrelpath]
    rw [href_to_name_eval root _ (some b) hparse hqne hqhead]
    show some (abspath_to_name root (normAbs ((name_to_abspath root b).dropLast
        ++ splitSegs (urlunquote (urlquote (joinSegs (r0 :: rrest))))))) = some n
    rw [quote_unquote_str, hbasedir]
    have hsplitJ : splitSegs (joinSegs (r0 :: rrest)) = r0 :: rrest := by
      apply splitSegs_joinSegs
      · simp
      · intro s hs
        apply hslashfree
        rw [hrelcons]
        exact hs
    rw [hsplitJ, ← hrelcons, hrel]
    have hnormfull : normAbs ((root ++ (splitSegs b).dropLast)
        ++ (List.replicate (((splitSegs b).dropLast).length
            - commonPrefixLen (splitSegs n) ((splitSegs b).dropLast)) ".."
          ++ (splitSegs n).drop (commonPrefixLen (splitSegs n) ((splitSegs b).dropLast))))
        = root ++ splitSegs n := by
      unfold normAbs
      rw [normFrom_append, normFrom_clean (root ++ (splitSegs b).dropLast) hbothclean []]
      simp only [List.nil_append]
      rw [normFrom_append]
      rw [normFrom_replicate_dotdot root _ ((splitSegs b).dropLast) (by omega)]
      have harith : ((splitSegs b).dropLast).length - (((splitSegs b).dropLast).length
          - commonPrefixLen (splitSegs n) ((splitSegs b).dropLast))
          = commonPrefixLen (splitSegs n) ((splitSegs b).dropLast) := by omega
      rw [harith, ← take_commonPrefixLen_eq (splitSegs n) ((splitSegs b).dropLast)]
      rw [normFrom_clean ((splitSegs n).drop
          (commonPrefixLen (splitSegs n) ((splitSegs b).dropLast)))
          (fun s hs => hn s (List.mem_of_mem_drop hs))]
      rw [List.append_assoc, List.take_append_drop]
    rw [hnormfull, abspath_to_name_append root (splitSegs n) hnne, joinSegs_splitSegs]

/-! ## Claim C3: names returned by href_to_name -/

theorem relSegs_self (x : List String) : relSegs x x = [] := by
  have h := relSegs_append_self x []
  simpa using h

theorem relpathStr_self (x : List String) : relpathStr x x = "." := by
  unfold relpathStr
  dsimp only
  rw [relSegs_self x]
  simp

theorem name_to_abspath_dot (root : List String) (hr : cleanRoot root) :
    name_to_abspath root "." = root := by
  unfold name_to_abspath
  have hsp : splitSegs "." = ["."] := by decide
  rw [hsp]
  unfold normAbs
  rw [normFrom_append, normFrom_clean root hr []]
  simp only [List.nil_append]
  show normStep root "." = root
  unfold normStep
  rw [if_pos (Or.inr rfl)]

/-- Core of claim C3 (amended): resolving a `..`-free decoded path
against a clean directory under `root` yields a name without `..` that
stays under `root`. -/
theorem resolved_name_no_escape (root bdirX : List String) (p : String)
    (hr : cleanRoot root) (hbdclean : ∀ s ∈ bdirX, cleanSeg s)
    (hbdfree : ∀ s ∈ bdirX, '/' ∉ s.data)
    (hnd : ".." ∉ splitSegs p) (name : String)
    (hname : name = abspath_to_name root (normAbs ((root ++ bdirX) ++ splitSegs p))) :
    (".." ∉ splitSegs name) ∧ root <+: name_to_abspath root name := by
  have hsegsfree : ∀ s ∈ splitSegs p, '/' ∉ s.data :=
    slash_free_of_mem_splitSegs _
  have hnorm : normAbs ((root ++ bdirX) ++ splitSegs p)
      = root ++ (bdirX ++ (splitSegs p).filter (fun s => !(s = "" || s = "."))) := by
    unfold normAbs
    rw [normFrom_append,
      normFrom_clean (root ++ bdirX) (by
        intro s hs
        rcases List.mem_append.mp hs with hs | hs
        · exact hr s hs
        · exact hbdclean s hs) []]
    simp only [List.nil_append]
    rw [normFrom_no_dotdot _ hnd]
    rw [List.append_assoc]
  rw [hnorm] at hname
  have hrestclean : ∀ s ∈ bdirX ++ (splitSegs p).filter
      (fun s => !(s = "" || s = ".")), cleanSeg s := by
    intro s hs
    rcases List.mem_append.mp hs with hs | hs
    · exact hbdclean s hs
    · rw [List.mem_filter] at hs
      obtain ⟨hmem, hkeep⟩ := hs
      have hne2 : s ≠ ".." := by
        intro he
        rw [he] at hmem
        exact hnd hmem
      simp only [Bool.not_eq_true', Bool.or_eq_false_iff,
        decide_eq_false_iff_not] at hkeep
      exact ⟨hkeep.1, hkeep.2, hne2⟩
  have hrestfree : ∀ s ∈ bdirX ++ (splitSegs p).filter
      (fun s => !(s = "" || s = ".")), '/' ∉ s.data := by
    intro s hs
    rcases List.mem_append.mp hs with hs | hs
    · exact hbdfree s hs
    · rw [List.mem_filter] at hs
      exact hsegsfree s hs.1
  by_cases hrest : bdirX ++ (splitSegs p).filter (fun s => !(s = "" || s = ".")) = []
  · rw [hrest] at hname
    simp only [List.append_nil] at hname
    have hdot : name = "." := by
      rw [hname]
      unfold abspath_to_name
      exact relpathStr_self root
    constructor
    · rw [hdot]
      decide
    · rw [hdot, name_to_abspath_dot root hr]
  · have hjoin : name = joinSegs (bdirX
        ++ (splitSegs p).filter (fun s => !(s = "" || s = "."))) := by
      rw [hname]
      exact abspath_to_name_append root _ hrest
    have hsplitname : splitSegs name = bdirX
        ++ (splitSegs p).filter (fun s => !(s = "" || s = ".")) := by
      rw [hjoin]
      exact splitSegs_joinSegs _ hrest hrestfree
    constructor
    · rw [hsplitname]
      intro hmem
      exact (hrestclean ".." hmem).2.2 rfl
    · have hvalid : validName name := by
        intro s hs
        rw [hsplitname] at hs
        exact hrestclean s hs
      rw [name_to_abspath_clean root name hr hvalid]
      exact List.prefix_append root _

/-- Auxiliary form of claim C3 (amended): when the decoded href path has
no `..` segment, the returned name has no `..` segment and resolves to a
path under `root`. -/
theorem href_to_name_no_escape_aux (root : List String) (h : String) (base : Option String)
    (hr : cleanRoot root)
    (hbase : ∀ b, base = some b → validName b)
    (hnd : ".." ∉ splitSegs (urlunquote (urlparseModel h).path))
    (name : String)
    (hres : href_to_name root h base = some name) :
    (".." ∉ splitSegs name) ∧ root <+: name_to_abspath root name := by
  cases base with
  | none =>
    unfold href_to_name at hres
    dsimp only at hres
    by_cases hcond : (urlparseModel h).scheme ≠ "" ∨ (urlparseModel h).path = ""
        ∨ (urlparseModel h).path.data.head? = some '/'
    · rw [if_pos hcond] at hres
      cases hres
    · rw [if_neg hcond] at hres
      injection hres with hres2
      refine resolved_name_no_escape root [] (urlunquote (urlparseModel h).path)
        hr (by simp) (by simp) hnd name ?_
      rw [← hres2]
      simp
  | some b =>
    have hvb : validName b := hbase b rfl
    have hbabs : name_to_abspath root b = root ++ splitSegs b :=
      name_to_abspath_clean root b hr hvb
    have hbasedir : (name_to_abspath root b).dropLast = root ++ (splitSegs b).dropLast := by
      rw [hbabs]
      exact List.dropLast_append_of_ne_nil root (splitSegs_ne_nil b)
    unfold href_to_name at hres
    dsimp only at hres
    by_cases hcond : (urlparseModel h).scheme ≠ "" ∨ (urlparseModel h).path = ""
        ∨ (urlparseModel h).path.data.head? = some '/'
    · rw [if_pos hcond] at hres
      cases hres
    · rw [if_neg hcond, hbasedir] at hres
      injection hres with hres2
      exact resolved_name_no_escape root ((splitSegs b).dropLast)
        (urlunquote (urlparseModel h).path) hr
        (fun s hs => hvb s (List.mem_of_mem_dropLast hs))
        (fun s hs => slash_free_of_mem_splitSegs b s (List.mem_of_mem_dropLast hs))
        hnd name hres2.symm

/-! ## Filesystem model

Paths are absolute segment lists. Hard links are modelled by an explicit
path-to-inode table, so that `nlinks_file` and the copy-on-write
decoupling of cloned containers are meaningful. Directories are tracked
as a plain set of paths (`os.makedirs` adds them). -/

abbrev FPath := List String

structure FS where
  files : List (FPath × Nat)
  data : Nat → List Nat
  dirs : List FPath
  fresh : Nat

/-- Inode bound to a path, if the path is a file. -/
def fsInode (fs : FS) (p : FPath) : Option Nat :=
  alookup fs.files p

/-- Is there a regular file at `p` (`os.path.isfile`)? -/
def fsIsFile (fs : FS) (p : FPath) : Bool :=
  (fsInode fs p).isSome

/-- Does anything exist at `p` (`os.path.exists`)? -/
def fsExists (fs : FS) (p : FPath) : Bool :=
  fsIsFile fs p || fs.dirs.contains p

/-- Bytes of the file at `p` (`open(p, 'rb').read()`). -/
def fsRead (fs : FS) (p : FPath) : Option (List Nat) :=
  (fsInode fs p).map fs.data

/-- Hard-link count of the file at `p` (`nlinks_file`); 0 when absent
(the real call raises, callers only use it on existing paths). -/
def nlinks_file (fs : FS) (p : FPath) : Nat :=
  match fsInode fs p with
  | some i => (fs.files.filter (fun q => q.2 = i)).length
  | none => 0

/-- Remove the link at `p` (`os.unlink`). -/
def fsUnlink (fs : FS) (p : FPath) : FS :=
  { fs with files := aerase fs.files p }

/-- Write bytes at `p` (`open(p, 'wb'); write`): truncates the inode in
place when the path exists, otherwise binds a fresh inode. -/
def fsWrite (fs : FS) (p : FPath) (d : List Nat) : FS :=
  match fsInode fs p with
  | some i => { fs with data := fun j => if j = i then d else fs.data j }
  | none =>
    { files := (p, fs.fresh) :: fs.files,
      data := fun j => if j = fs.fresh then d else fs.data j,
      dirs := fs.dirs,
      fresh := fs.fresh + 1 }

/-- Create the directory `p` and its ancestors (`os.makedirs`). -/
def fsMakedirs (fs : FS) (p : FPath) : FS :=
  { fs with dirs := (List.range (p.length + 1)).map (fun k => p.take k) ++ fs.dirs }

/-- Copy file contents (`shutil.copyfile`); caller guards existence of
the source. -/
def fsCopyFile (fs : FS) (src dst : FPath) : FS :=
  match fsRead fs src with
  | some d => fsWrite fs dst d
  | none => fs

/-- Rename a file (`os.rename`), replacing any existing target link. -/
def fsRename (fs : FS) (src dst : FPath) : FS :=
  match fsInode fs src with
  | some i => { fs with files := (dst, i) :: aerase (aerase fs.files src) dst }
  | none => fs

/-- Wellformedness of the filesystem model: link-table keys are unique,
all inodes lie below `fresh`, and every file has its parent directory. -/
structure FSWF (fs : FS) : Prop where
  nodup : (fs.files.map Prod.fst).Nodup
  bound : ∀ q ∈ fs.files, q.2 < fs.fresh
  parent : ∀ q ∈ fs.files, (Prod.fst q).dropLast ∈ fs.dirs

theorem alookup_isSome_of_mem {κ α : Type} [DecidableEq κ] (l : List (κ × α)) (k : κ) (v : α)
    (h : (k, v) ∈ l) : alookup l k ≠ none := by
  induction l with
  | nil => cases h
  | cons p rest ih =>
    obtain ⟨pk, pv⟩ := p
    by_cases hp : pk = k
    · simp [alookup, hp]
    · simp only [alookup, if_neg hp]
      rcases List.mem_cons.mp h with he | h2
      · injection he with h1 _
        exact absurd h1.symm hp
      · exact ih h2

theorem alookup_mem {κ α : Type} [DecidableEq κ] (l : List (κ × α)) (k : κ) (v : α)
    (h : alookup l k = some v) : (k, v) ∈ l := by
  induction l with
  | nil => cases h
  | cons p rest ih =>
    obtain ⟨pk, pv⟩ := p
    by_cases hp : pk = k
    · subst hp
      simp only [alookup, if_pos rfl] at h
      injection h with h
      subst h
      simp
    · simp only [alookup, if_neg hp] at h
      exact List.mem_cons_of_mem _ (ih h)

theorem two_le_length_of_mem {α : Type} (l : List α) (a b : α)
    (ha : a ∈ l) (hb : b ∈ l) (hab : a ≠ b) : 2 ≤ l.length := by
  induction l with
  | nil => cases ha
  | cons x t ih =>
    rcases List.mem_cons.mp ha with rfl | ha2
    · rcases List.mem_cons.mp hb with rfl | hb2
      · exact absurd rfl hab
      · have : 1 ≤ t.length := List.length_pos_of_mem hb2
        simp only [List.length_cons]
        omega
    · have : 1 ≤ t.length := List.length_pos_of_mem ha2
      simp only [List.length_cons]
      omega

/-- In a wellformed filesystem, two distinct paths on the same inode
force a link count of at least 2. -/
theorem two_le_nlinks_of_shared (fs : FS) (p q : FPath) (i : Nat)
    (hp : fsInode fs p = some i) (hq : fsInode fs q = some i) (hpq : p ≠ q) :
    2 ≤ nlinks_file fs p := by
  unfold nlinks_file
  rw [hp]
  have hpm : (p, i) ∈ fs.files := alookup_mem _ _ _ hp
  have hqm : (q, i) ∈ fs.files := alookup_mem _ _ _ hq
  have hpf : (p, i) ∈ fs.files.filter (fun q2 => q2.2 = i) := by
    rw [List.mem_filter]
    exact ⟨hpm, by simp⟩
  have hqf : (q, i) ∈ fs.files.filter (fun q2 => q2.2 = i) := by
    rw [List.mem_filter]
    exact ⟨hqm, by simp⟩
  exact two_le_length_of_mem _ _ _ hpf hqf (by simp [hpq])

theorem fsInode_write_ne (fs : FS) (p q : FPath) (d : List Nat) (hq : q ≠ p) :
    fsInode (fsWrite fs p d) q = fsInode fs q := by
  unfold fsWrite
  cases hp : fsInode fs p with
  | some i => rfl
  | none =>
    show alookup ((p, fs.fresh) :: fs.files) q = fsInode fs q
    have hne : p ≠ q := fun he => hq he.symm
    simp only [alookup, if_neg hne]
    rfl

/-- Reading another path after a write: unchanged provided the write
target does not share an inode with the observed path. -/
theorem fsRead_write_ne (fs : FS) (p q : FPath) (d : List Nat)
    (hwf : FSWF fs) (hq : q ≠ p)
    (hshare : fsInode fs q ≠ fsInode fs p ∨ nlinks_file fs p ≤ 1) :
    fsRead (fsWrite fs p d) q = fsRead fs q := by
  have hio := fsInode_write_ne fs p q d hq
  unfold fsRead
  rw [hio]
  cases hqi : fsInode fs q with
  | none => rfl
  | some j =>
    show some ((fsWrite fs p d).data j) = some (fs.data j)
    congr 1
    unfold fsWrite
    cases hpi : fsInode fs p with
    | some i =>
      have hij : j ≠ i := by
        intro he
        subst he
        rcases hshare with hs | hs
        · rw [hqi, hpi] at hs
          exact hs rfl
        · have := two_le_nlinks_of_shared fs p q j hpi hqi (fun he2 => hq he2.symm)
          omega
      show (if j = i then d else fs.data j) = fs.data j
      rw [if_neg hij]
    | none =>
      have hj : j < fs.fresh := hwf.bound (q, j) (alookup_mem _ _ _ hqi)
      show (if j = fs.fresh then d else fs.data j) = fs.data j
      rw [if_neg (by omega)]

theorem fsRead_unlink_ne (fs : FS) (p q : FPath) (hq : q ≠ p) :
    fsRead (fsUnlink fs p) q = fsRead fs q := by
  unfold fsRead fsUnlink fsInode
  rw [alookup_aerase_ne fs.files p q (fun he => hq he.symm)]

theorem fsRead_makedirs (fs : FS) (p q : FPath) :
    fsRead (fsMakedirs fs p) q = fsRead fs q := rfl

theorem fsIsFile_makedirs (fs : FS) (p q : FPath) :
    fsIsFile (fsMakedirs fs p) q = fsIsFile fs q := rfl

/-- Wellformedness is preserved by `fsWrite` when the parent directory
of the target exists. -/
theorem FSWF_write (fs : FS) (p : FPath) (d : List Nat) (hwf : FSWF fs)
    (hdir : p.dropLast ∈ fs.dirs) : FSWF (fsWrite fs p d) := by
  unfold fsWrite
  cases hp : fsInode fs p with
  | some i => exact ⟨hwf.nodup, hwf.bound, hwf.parent⟩
  | none =>
    refine ⟨?_, ?_, ?_⟩
    · simp only [List.map_cons]
      refine List.Nodup.cons ?_ hwf.nodup
      intro hmem
      rw [List.mem_map] at hmem
      obtain ⟨q, hq, hq2⟩ := hmem
      obtain ⟨qp, qi⟩ := q
      simp only at hq2
      have h3 := alookup_isSome_of_mem fs.files qp qi hq
      rw [hq2] at h3
      exact h3 hp
    · intro q hq
      rcases List.mem_cons.mp hq with rfl | hq2
      · simp
      · have := hwf.bound q hq2
        simp only []
        omega
    · intro q hq
      rcases List.mem_cons.mp hq with rfl | hq2
      · exact hdir
      · exact hwf.parent q hq2

theorem FSWF_makedirs (fs : FS) (p : FPath) (hwf : FSWF fs) : FSWF (fsMakedirs fs p) := by
  refine ⟨hwf.nodup, hwf.bound, ?_⟩
  intro q hq
  have hmem := hwf.parent q hq
  unfold fsMakedirs
  simp only []
  exact List.mem_append_right _ hmem

theorem FSWF_unlink (fs : FS) (p : FPath) (hwf : FSWF fs) : FSWF (fsUnlink fs p) := by
  refine ⟨?_, ?_, ?_⟩
  · unfold fsUnlink aerase
    have hsub : List.Sublist ((fs.files.filter (fun q => q.1 ≠ p)).map Prod.fst)
        (fs.files.map Prod.fst) := (List.filter_sublist _).map _
    exact hwf.nodup.sublist hsub
  · intro q hq
    unfold fsUnlink aerase at hq
    simp only [List.mem_filter] at hq
    exact hwf.bound q hq.1
  · intro q hq
    unfold fsUnlink aerase at hq
    simp only [List.mem_filter] at hq
    exact hwf.parent q hq.1

theorem fsMakedirs_dirs_self (fs : FS) (p : FPath) : p ∈ (fsMakedirs fs p).dirs := by
  unfold fsMakedirs
  simp only []
  apply List.mem_append_left
  rw [List.mem_map]
  exact ⟨p.length, by simp, List.take_length _⟩

/-! ## Small string helpers used by the container -/

/-- Does `s` end with `t`? (`str.endswith`, also the `mime[-4:]` test). -/
def hasSuffixStr (s t : String) : Bool :=
  s.data.reverse.take t.data.length = t.data.reverse

/-- Does `s` start with `t`? (`str.startswith`). -/
def hasPrefixStr (s t : String) : Bool :=
  s.data.take t.data.length = t.data

/-- Substring after the last colon: `s.rpartition(':')[-1]` (the whole
string when there is no colon). -/
def afterLastColon (s : String) : String :=
  ⟨(s.data.reverse.takeWhile (fun c => !(c = ':'))).reverse⟩

/-- Python `s.rpartition(c)[0::2]`: the pieces before and after the last
occurrence of `c` (`("", s)` when `c` is absent). -/
def rpartitionChar (c : Char) (s : String) : String × String :=
  let rev := s.data.reverse
  let afterRev := rev.takeWhile (fun a => !(a = c))
  (⟨(rev.drop (afterRev.length + 1)).reverse⟩, ⟨afterRev.reverse⟩)

/-- Is the two-character sequence `..` a substring? (`'..' in name`). -/
def hasDotDotSub : List Char → Bool
  | '.' :: '.' :: _ => true
  | _ :: rest => hasDotDotSub rest
  | [] => false

/-! ## Decimal rendering of naturals (the `%d` format) -/

def natDigitChar (n : Nat) : Char :=
  Char.ofNat (48 + n % 10)

/-- Decimal digits of `n`, fuelled (fuel `n` always suffices). -/
def natDecimalAux : Nat → Nat → List Char
  | 0, n => [natDigitChar n]
  | fuel + 1, n =>
    if n < 10 then [natDigitChar n]
    else natDecimalAux fuel (n / 10) ++ [natDigitChar n]

/-- Decimal rendering of a natural number (`'%d' % n`). -/
def natDecimal (n : Nat) : String :=
  ⟨natDecimalAux n n⟩

/-- Value of a digit string, used to invert `natDecimal`. -/
def digitsToNat (l : List Char) : Nat :=
  l.foldl (fun acc c => acc * 10 + (c.toNat - 48)) 0

theorem toNat_natDigitChar (n : Nat) : (natDigitChar n).toNat = 48 + n % 10 := by
  have hv : (48 + n % 10).isValidChar := by
    left
    have : n % 10 < 10 := Nat.mod_lt _ (by omega)
    omega
  unfold natDigitChar
  rw [Char.ofNat, dif_pos hv]
  rfl

theorem digitsToNat_append_digit (l : List Char) (c : Char) :
    digitsToNat (l ++ [c]) = digitsToNat l * 10 + (c.toNat - 48) := by
  unfold digitsToNat
  rw [List.foldl_append]
  rfl

theorem digitsToNat_natDecimalAux :
    ∀ fuel n, n < 10 ^ (fuel + 1) → digitsToNat (natDecimalAux fuel n) = n := by
  intro fuel
  induction fuel with
  | zero =>
    intro n hn
    have h10 : n < 10 := by simpa using hn
    show digitsToNat [natDigitChar n] = n
    unfold digitsToNat
    simp only [List.foldl_cons, List.foldl_nil]
    rw [toNat_natDigitChar]
    have : n % 10 = n := Nat.mod_eq_of_lt h10
    omega
  | succ fuel ih =>
    intro n hn
    by_cases h10 : n < 10
    · show digitsToNat (if n < 10 then [natDigitChar n]
          else natDecimalAux fuel (n / 10) ++ [natDigitChar n]) = n
      rw [if_pos h10]
      unfold digitsToNat
      simp only [List.foldl_cons, List.foldl_nil]
      rw [toNat_natDigitChar]
      have : n % 10 = n := Nat.mod_eq_of_lt h10
      omega
    · show digitsToNat (if n < 10 then [natDigitChar n]
          else natDecimalAux fuel (n / 10) ++ [natDigitChar n]) = n
      rw [if_neg h10, digitsToNat_append_digit]
      have hdiv : n / 10 < 10 ^ (fuel + 1) := by
        rw [Nat.div_lt_iff_lt_mul (by omega : 0 < 10)]
        calc n < 10 ^ (fuel + 1 + 1) := hn
          _ = 10 ^ (fuel + 1) * 10 := by ring
      rw [ih (n / 10) hdiv, toNat_natDigitChar]
      have := Nat.div_add_mod n 10
      omega

theorem digitsToNat_natDecimal (n : Nat) : digitsToNat (natDecimal n).data = n := by
  unfold natDecimal
  show digitsToNat (natDecimalAux n n) = n
  apply digitsToNat_natDecimalAux
  calc n < 10 ^ n := Nat.lt_pow_self (by omega) n
    _ ≤ 10 ^ (n + 1) := Nat.pow_le_pow_right (by omega) (by omega)

theorem natDecimal_injective (a b : Nat) (h : natDecimal a = natDecimal b) : a = b := by
  have ha := digitsToNat_natDecimal a
  have hb := digitsToNat_natDecimal b
  rw [h] at ha
  omega

theorem natDecimalAux_ne_nil (fuel n : Nat) : natDecimalAux fuel n ≠ [] := by
  cases fuel with
  | zero => simp [natDecimalAux]
  | succ fuel =>
    show (if n < 10 then [natDigitChar n]
        else natDecimalAux fuel (n / 10) ++ [natDigitChar n]) ≠ []
    by_cases h : n < 10
    · simp [h]
    · simp [h]

/-! ## Fresh identifier generation (the id collision loop) -/

/-- Candidate identifier number `c`: the prefix for `c = 0`, then the
prefix followed by the decimal of `c`. -/
def candId (pre : String) (c : Nat) : String :=
  if c = 0 then pre else pre ++ natDecimal c

/-- The collision loop of `add_file` / `generate_item`:
`while item_id in all_ids: c += 1; item_id = prefix + '%d' % c`. -/
def freshIdFrom (ids : List String) (pre : String) : Nat → Nat → Nat
  | 0, c => c
  | fuel + 1, c => if candId pre c ∈ ids then freshIdFrom ids pre fuel (c + 1) else c

def freshIdIndex (ids : List String) (pre : String) : Nat :=
  freshIdFrom ids pre (ids.length + 1) 0

def freshId (ids : List String) (pre : String) : String :=
  candId pre (freshIdIndex ids pre)

theorem string_append_data (a b : String) : (a ++ b).data = a.data ++ b.data := rfl

theorem candId_injective (pre : String) (a b : Nat) (h : candId pre a = candId pre b) :
    a = b := by
  unfold candId at h
  by_cases ha : a = 0
  · by_cases hb : b = 0
    · rw [ha, hb]
    · rw [if_pos ha, if_neg hb] at h
      have hlen := congrArg (fun s => s.data.length) h
      simp only [string_append_data, List.length_append] at hlen
      have hne := natDecimalAux_ne_nil b b
      have : 1 ≤ (natDecimal b).data.length := by
        show 1 ≤ (natDecimalAux b b).length
        cases hd : natDecimalAux b b with
        | nil => exact absurd hd hne
        | cons x t => simp
      omega
  · by_cases hb : b = 0
    · rw [if_neg ha, if_pos hb] at h
      have hlen := congrArg (fun s => s.data.length) h
      simp only [string_append_data, List.length_append] at hlen
      have hne := natDecimalAux_ne_nil a a
      have : 1 ≤ (natDecimal a).data.length := by
        show 1 ≤ (natDecimalAux a a).length
        cases hd : natDecimalAux a a with
        | nil => exact absurd hd hne
        | cons x t => simp
      omega
    · rw [if_neg ha, if_neg hb] at h
      have hdata := congrArg String.data h
      simp only [string_append_data] at hdata
      have hcancel := List.append_cancel_left hdata
      apply natDecimal_injective
      cases hna : natDecimal a with
      | mk da =>
        cases hnb : natDecimal b with
        | mk db =>
          rw [hna, hnb] at hcancel
          simp only at hcancel
          rw [hcancel]

theorem freshIdFrom_all_mem (ids : List String) (pre : String) :
    ∀ fuel c0, candId pre (freshIdFrom ids pre fuel c0) ∈ ids →
      ∀ k ≤ fuel, candId pre (c0 + k) ∈ ids := by
  intro fuel
  induction fuel with
  | zero =>
    intro c0 h k hk
    have hk0 : k = 0 := by omega
    rw [hk0]
    exact h
  | succ fuel ih =>
    intro c0 h k hk
    by_cases hc : candId pre c0 ∈ ids
    · have h2 : freshIdFrom ids pre (fuel + 1) c0 = freshIdFrom ids pre fuel (c0 + 1) := by
        show (if candId pre c0 ∈ ids then freshIdFrom ids pre fuel (c0 + 1) else c0)
            = freshIdFrom ids pre fuel (c0 + 1)
        rw [if_pos hc]
      rw [h2] at h
      cases k with
      | zero => simpa using hc
      | succ k =>
        have h3 := ih (c0 + 1) h k (by omega)
        have harith : c0 + 1 + k = c0 + (k + 1) := by omega
        rw [harith] at h3
        exact h3
    · have h2 : freshIdFrom ids pre (fuel + 1) c0 = c0 := by
        show (if candId pre c0 ∈ ids then freshIdFrom ids pre fuel (c0 + 1) else c0) = c0
        rw [if_neg hc]
      rw [h2] at h
      exact absurd h hc

/-- The generated id never collides with an existing id. -/
theorem freshId_not_mem (ids : List String) (pre : String) : freshId ids pre ∉ ids := by
  intro hmem
  have hall : ∀ k ≤ ids.length + 1, candId pre (0 + k) ∈ ids :=
    freshIdFrom_all_mem ids pre (ids.length + 1) 0 hmem
  have hsub : (List.range (ids.length + 2)).map (candId pre) ⊆ ids := by
    intro x hx
    rw [List.mem_map] at hx
    obtain ⟨k, hk, rfl⟩ := hx
    rw [List.mem_range] at hk
    have h3 := hall k (by omega)
    simpa using h3
  have hnodup : ((List.range (ids.length + 2)).map (candId pre)).Nodup :=
    (List.nodup_range _).map (fun a b => candId_injective pre a b)
  have hle : ((List.range (ids.length + 2)).map (candId pre)).length ≤ ids.length :=
    (hnodup.subperm hsub).length_le
  simp at hle

/-- The generated id is the first candidate in the sequence that does
not collide: every earlier candidate is taken. -/
theorem freshId_smallest (ids : List String) (pre : String) :
    ∀ k < freshIdIndex ids pre, candId pre k ∈ ids := by
  have main : ∀ fuel c0, (∀ k2, k2 < c0 → candId pre k2 ∈ ids) →
      ∀ k < freshIdFrom ids pre fuel c0, candId pre k ∈ ids := by
    intro fuel
    induction fuel with
    | zero =>
      intro c0 hinv k hk
      exact hinv k hk
    | succ fuel ih =>
      intro c0 hinv k hk
      by_cases hc : candId pre c0 ∈ ids
      · have h2 : freshIdFrom ids pre (fuel + 1) c0 = freshIdFrom ids pre fuel (c0 + 1) := by
          show (if candId pre c0 ∈ ids then freshIdFrom ids pre fuel (c0 + 1) else c0)
              = freshIdFrom ids pre fuel (c0 + 1)
          rw [if_pos hc]
        rw [h2] at hk
        refine ih (c0 + 1) ?_ k hk
        intro k2 hk2
        by_cases hk3 : k2 = c0
        · rw [hk3]
          exact hc
        · exact hinv k2 (by omega)
      · have h2 : freshIdFrom ids pre (fuel + 1) c0 = c0 := by
          show (if candId pre c0 ∈ ids then freshIdFrom ids pre fuel (c0 + 1) else c0) = c0
          rw [if_neg hc]
        rw [h2] at hk
        exact hinv k hk
  intro k hk
  exact main (ids.length + 1) 0 (fun k2 hk2 => absurd hk2 (by omega)) k hk

/-! ## Text decoding (`Container.decode`)

Models the BOM detection and UTF decoding chain of the source; the final
fallback `xml_to_unicode` (an external collaborator doing XML-declaration
sniffing and chardet detection) is passed in as the `sniff` parameter. -/

/-- Newline normalisation `d.replace('\r\n', '\n').replace('\r', '\n')`. -/
def fixDataChars : List Char → List Char
  | '\r' :: '\n' :: rest => '\n' :: fixDataChars rest
  | '\r' :: rest => '\n' :: fixDataChars rest
  | c :: rest => c :: fixDataChars rest
  | [] => []

def fixData (s : String) : String :=
  ⟨fixDataChars s.data⟩

/-- Strict UTF-8 decoding of a byte list (`bytes.decode('utf-8')`;
surrogate and overlong forms are rejected). -/
def utf8Decode? : List Nat → Option (List Char)
  | [] => some []
  | b0 :: rest =>
    if b0 < 0x80 then
      (utf8Decode? rest).map (fun cs => Char.ofNat b0 :: cs)
    else if b0 < 0xC2 then none
    else if b0 < 0xE0 then
      match rest with
      | b1 :: rest2 =>
        if 0x80 ≤ b1 ∧ b1 < 0xC0 then
          (utf8Decode? rest2).map
            (fun cs => Char.ofNat ((b0 - 0xC0) * 64 + (b1 - 0x80)) :: cs)
        else none
      | _ => none
    else if b0 < 0xF0 then
      match rest with
      | b1 :: b2 :: rest2 =>
        if (0x80 ≤ b1 ∧ b1 < 0xC0) ∧ (0x80 ≤ b2 ∧ b2 < 0xC0) then
          let v := (b0 - 0xE0) * 4096 + (b1 - 0x80) * 64 + (b2 - 0x80)
          if 0x800 ≤ v ∧ ¬ (0xD800 ≤ v ∧ v < 0xE000) then
            (utf8Decode? rest2).map (fun cs => Char.ofNat v :: cs)
          else none
        else none
      | _ => none
    else if b0 < 0xF5 then
      match rest with
      | b1 :: b2 :: b3 :: rest2 =>
        if (0x80 ≤ b1 ∧ b1 < 0xC0) ∧ (0x80 ≤ b2 ∧ b2 < 0xC0) ∧ (0x80 ≤ b3 ∧ b3 < 0xC0) then
          let v := (b0 - 0xF0) * 262144 + (b1 - 0x80) * 4096 + (b2 - 0x80) * 64 + (b3 - 0x80)
          if 0x10000 ≤ v ∧ v < 0x110000 then
            (utf8Decode? rest2).map (fun cs => Char.ofNat v :: cs)
          else none
        else none
      | _ => none
    else none

/-- UTF-16 decoding from a list of 16-bit units. -/
def utf16Units? : List Nat → Option (List Char)
  | [] => some []
  | u :: rest =>
    if 0xD800 ≤ u ∧ u < 0xDC00 then
      match rest with
      | u2 :: rest2 =>
        if 0xDC00 ≤ u2 ∧ u2 < 0xE000 then
          (utf16Units? rest2).map
            (fun cs => Char.ofNat (0x10000 + (u - 0xD800) * 1024 + (u2 - 0xDC00)) :: cs)
        else none
      | _ => none
    else if 0xDC00 ≤ u ∧ u < 0xE000 then none
    else (utf16Units? rest).map (fun cs => Char.ofNat u :: cs)

/-- Group bytes into 16-bit units with the given endianness. -/
def units16 (littleEndian : Bool) : List Nat → Option (List Nat)
  | [] => some []
  | [_] => none
  | a :: b :: rest =>
    (units16 littleEndian rest).map
      (fun us => (if littleEndian then b * 256 + a else a * 256 + b) :: us)

def utf16Decode? (littleEndian : Bool) (bytes : List Nat) : Option (List Char) :=
  match units16 littleEndian bytes with
  | some us => utf16Units? us
  | none => none

/-- UTF-32 decoding with the given endianness. -/
def utf32Decode? (littleEndian : Bool) : List Nat → Option (List Char)
  | [] => some []
  | a :: b :: c :: d :: rest =>
    let v := if littleEndian then d * 16777216 + c * 65536 + b * 256 + a
             else a * 16777216 + b * 65536 + c * 256 + d
    if v < 0x110000 ∧ ¬ (0xD800 ≤ v ∧ v < 0xE000) then
      (utf32Decode? littleEndian rest).map (fun cs => Char.ofNat v :: cs)
    else none
  | _ => none

/-- Method `Container.decode`: BOM-directed decode, then UTF-8, then the
sniffing fallback; newlines are normalised on every path. -/
def Container.decode (sniff : List Nat → String) (data0 : List Nat) : String :=
  let bom : Option (Nat × (List Nat → Option (List Char))) :=
    if data0.take 4 = [0x00, 0x00, 0xFE, 0xFF] then some (4, utf32Decode? false)
    else if data0.take 4 = [0xFF, 0xFE, 0x00, 0x00] then some (4, utf32Decode? true)
    else if data0.take 2 = [0xFF, 0xFE] then some (2, utf16Decode? true)
    else if data0.take 2 = [0xFE, 0xFF] then some (2, utf16Decode? false)
    else if data0.take 3 = [0xEF, 0xBB, 0xBF] then some (3, utf8Decode?)
    else none
  match bom with
  | some (k, dec) =>
    let stripped := data0.drop k
    match dec stripped with
    | some cs => fixData ⟨cs⟩
    | none =>
      match utf8Decode? stripped with
      | some cs => fixData ⟨cs⟩
      | none => fixData (sniff stripped)
  | none =>
    match utf8Decode? data0 with
    | some cs => fixData ⟨cs⟩
    | none => fixData (sniff data0)

/-! ## MIME constants and guessers -/

/-- Modelled from the spec: HTML-family MIME types (the external set
`calibre.ebooks.oeb.base.OEB_DOCS`). -/
def OEB_DOCS : List String :=
  ["application/xhtml+xml", "text/html", "text/x-oeb1-document", "application/x-dtbook+xml"]

/-- Modelled from the spec: CSS-family MIME types (the external set
`calibre.ebooks.oeb.base.OEB_STYLES`). -/
def OEB_STYLES : List String :=
  ["text/css", "text/x-oeb1-css", "xhtml/css"]

/-- Modelled from the spec: the Adobe font-obfuscation algorithm URI. -/
def ADOBE_OBFUSCATION : String := "http://ns.adobe.com/pdf/enc#RC"

/-- Modelled from the spec: the IDPF font-obfuscation algorithm URI. -/
def IDPF_OBFUSCATION : String := "http://www.idpf.org/2008/embedding"

/-- ASCII lowering of a string (`str.lower()`), written on the char
list so that it evaluates by kernel reduction. -/
def strLower (s : String) : String :=
  ⟨s.data.map Char.toLower⟩

/-- Modelled from the spec: the external MIME guesser by filename (a
consumed collaborator); returns a type for the known extensions used by
the book formats, nothing otherwise. -/
def mimeFromFilename (name : String) : Option String :=
  if ('.' ∈ name.data) then
    let ext := strLower (rpartitionChar '.' name).2
    if ext = "html" ∨ ext = "htm" then some "text/html"
    else if ext = "xhtml" ∨ ext = "xht" then some "application/xhtml+xml"
    else if ext = "css" then some "text/css"
    else if ext = "opf" then some "application/oebps-package+xml"
    else if ext = "ncx" then some "application/x-dtbncx+xml"
    else if ext = "epub" then some "application/epub+zip"
    else if ext = "txt" then some "text/plain"
    else if ext = "ttf" then some "application/x-font-ttf"
    else if ext = "otf" then some "application/x-font-otf"
    else if ext = "png" then some "image/png"
    else if ext = "jpg" ∨ ext = "jpeg" then some "image/jpeg"
    else none
  else none

/-- Module-level `guess_type`: the first component of the external
guess, defaulting to the octet-stream type. -/
def guess_type (x : String) : String :=
  (mimeFromFilename x).getD "application/octet-stream"

/-! ## The OPF document model

The parsed OPF tree is modelled structurally; each field corresponds to
the xpath queries the source performs. Whitespace and indentation
bookkeeping (`insert_into_xml` / `remove_from_xml` tail management) only
affects serialized output and is not modelled; insertion is an append,
removal a filter. -/

/-- An `opf:item` of the manifest (attributes `id`, `href`,
`media-type`, each possibly absent). -/
structure ManifestItem where
  id : Option String
  href : Option String
  mediaType : Option String
deriving DecidableEq

/-- An `opf:itemref` of the spine (attributes `idref` and `linear`). -/
structure SpineRef where
  idref : Option String
  linear : Option String
deriving DecidableEq

/-- An `opf:reference` of the guide. -/
structure GuideRef where
  typeAttr : Option String
  href : Option String
deriving DecidableEq

/-- An `opf:meta` element (attributes `name` and `content`). -/
structure MetaE where
  nameAttr : Option String
  content : Option String
deriving DecidableEq

/-- A metadata `identifier` element: its attributes and text. -/
structure MetaIdent where
  attrs : List (String × String)
  text : Option String
deriving DecidableEq

/-- The parsed OPF package.

* `packageAttrib` models `self.opf.attrib` (the root element).
* `manifest` models `//opf:manifest/opf:item`, `spine` the itemrefs,
  `spineToc` the `toc` attribute of the spine, `metas` the `opf:meta`
  elements, `guide` the guide references.
* `otherIdTexts` models the non-manifest elements carrying an `@id`
  (with their text); manifest, spine, guide and meta elements are
  modelled as attribute-only (no ids beyond the manifest, no text), so
  `//*[@id]` is the manifest ids plus the keys of `otherIdTexts`.
* `identifiers` models `//metadata/identifier`. -/
structure OPFDoc where
  packageAttrib : List (String × String)
  manifest : List ManifestItem
  spine : List SpineRef
  spineToc : Option String
  metas : List MetaE
  guide : List GuideRef
  otherIdTexts : List (String × Option String)
  identifiers : List MetaIdent
deriving DecidableEq

/-- All ids in the document: `self.opf_xpath('//*[@id]')`. -/
def OPFDoc.allIds (d : OPFDoc) : List String :=
  d.otherIdTexts.map Prod.fst ++ d.manifest.filterMap ManifestItem.id

/-- One encryption entry: an `EncryptionMethod` element that carries an
`Algorithm` attribute (the xpath selects only those), together with the
`URI` of the first descendant `CipherReference` of its parent
`EncryptedData`, when present. -/
structure EncMethodEntry where
  algorithm : String
  cipherURI : Option String
deriving DecidableEq

/-! ## The container -/

inductive PyErr where
  | valueErr (msg : String)
  | keyErr
  | ioErr
  | drm
  | invalidBook (msg : String)
deriving DecidableEq

/-- Is a result the `ValueError` kind (a caller-visible precondition
violation)? -/
def isPreconditionError {α : Type} : Except PyErr α → Bool
  | .error (.valueErr _) => true
  | _ => false

inductive BookKind
  | oeb
  | epub
  | azw3
deriving DecidableEq

/-- Container state. The parsed OPF is modelled by the `opf` field
(`self.opf`, materialised); `parsed_cache` carries opaque artifact
tokens for the cached parses; `encryption` is the structured view of the
parsed `META-INF/encryption.xml` (none when it is neither cached nor
available on disk). -/
structure Container where
  kind : BookKind
  root : List String
  cloned : Bool
  opf_name : String
  opf : OPFDoc
  name_path_map : List (String × FPath)
  mime_map : List (String × String)
  parsed_cache : List (String × Nat)
  dirtied : List String
  pretty_print : List String
  encryption : Option (List EncMethodEntry)
  obfuscated_fonts : List (String × String × List Nat)

/-- META-INF member table of the EPUB binding (`EpubContainer.META_INF`
keys). -/
def META_INF : List String :=
  ["container.xml", "manifest.xml", "encryption.xml", "metadata.xml",
   "signatures.xml", "rights.xml"]

def Container.names_that_need_not_be_manifested (c : Container) : List String :=
  match c.kind with
  | .epub => c.opf_name :: META_INF.map (fun x => "META-INF/" ++ x)
  | _ => [c.opf_name]

def Container.names_that_must_not_be_removed (c : Container) : List String :=
  match c.kind with
  | .epub => [c.opf_name, "META-INF/container.xml"]
  | _ => [c.opf_name]

def Container.names_that_must_not_be_changed (c : Container) : List String :=
  match c.kind with
  | .oeb => []
  | .epub => META_INF.map (fun x => "META-INF/" ++ x)
  | .azw3 => c.name_path_map.map Prod.fst

/-- Method `Container.guess_type`: the module guesser with `text/html`
replaced by the XHTML type (epubcheck rejects `text/html` in EPUB 2). -/
def Container.guess_type (name : String) : String :=
  let ans := Calibre.guess_type name
  if ans = "text/html" then "application/xhtml+xml" else ans

/-- Method `Container.has_name`: `name and name in self.name_path_map`. -/
def Container.has_name (c : Container) (name : String) : Bool :=
  !(name = "") && (alookup c.name_path_map name).isSome

/-- Method `Container.exists`: does the name resolve to something on
disk (`exists` is a Lean keyword, hence the underscore). -/
def Container.exists_name (c : Container) (fs : FS) (name : String) : Bool :=
  fsExists fs (name_to_abspath c.root name)

/-- Method `Container.dirty`: add to the dirtied set. -/
def Container.dirty (c : Container) (name : String) : Container :=
  { c with dirtied := if name ∈ c.dirtied then c.dirtied else name :: c.dirtied }

/-- The effective media type of `add_file`:
`mt = media_type or self.guess_type(name)` (line 189); an absent or
empty argument falls back to the method guess. -/
def addFileMediaType (name : String) (media_type : Option String) : String :=
  match media_type with
  | some m => if m = "" then Container.guess_type name else m
  | none => Container.guess_type name

/-- Method `Container.add_file` (lines 171-209 of the source). -/
def Container.add_file (c : Container) (fs : FS) (name : String)
    (data : List Nat) (media_type : Option String) : Except PyErr (Container × FS) :=
  if c.has_name name then
    .error (.valueErr "A file with the name already exists")
  else if hasDotDotSub name.data then
    .error (.valueErr "Names are not allowed to have .. in them")
  else
    let href := name_to_href c.root name (some c.opf_name)
    let allHrefs := c.opf.manifest.filterMap ManifestItem.href
    if href ∈ allHrefs then
      .error (.valueErr "An item with the href already exists in the manifest")
    else
      let path := name_to_abspath c.root name
      let base := path.dropLast
      let fs1 := if fsExists fs base then fs else fsMakedirs fs base
      let fs2 := fsWrite fs1 path data
      let mt := addFileMediaType name media_type
      let c1 := { c with name_path_map := ainsert c.name_path_map name path,
                         mime_map := ainsert c.mime_map name mt }
      if name ∈ c1.names_that_need_not_be_manifested then .ok (c1, fs2)
      else
        let item_id := freshId c1.opf.allIds "id"
        let item : ManifestItem := ⟨some item_id, some href, some mt⟩
        let c2 := Container.dirty
          { c1 with opf := { c1.opf with manifest := c1.opf.manifest ++ [item] } }
          c1.opf_name
        if mt ∈ OEB_DOCS then
          .ok ({ c2 with
            opf := { c2.opf with spine := c2.opf.spine ++ [⟨some item_id, none⟩] } }, fs2)
        else .ok (c2, fs2)

/-- Method `Container.commit_item` (lines 727-739). An artifact token in
`parsed_cache` stands for the parsed tree; `ser` is the external
`serialize` applied to it, the mime type and the pretty-print flag. -/
def Container.commit_item (ser : Nat → String → Bool → List Nat) (c : Container) (fs : FS)
    (name : String) (keep_parsed : Bool) : Except PyErr (Container × FS) :=
  match alookup c.parsed_cache name with
  | none => .ok (c, fs)
  | some art =>
    match alookup c.mime_map name with
    | none => .error .keyErr
    | some mime =>
      let data := ser art mime (name ∈ c.pretty_print)
      let c1 := { c with dirtied := c.dirtied.filter (fun x => x ≠ name),
                         parsed_cache := if keep_parsed then c.parsed_cache
                                         else aerase c.parsed_cache name }
      match alookup c1.name_path_map name with
      | none => .error .keyErr
      | some dest =>
        let fs1 := if c1.cloned ∧ nlinks_file fs dest > 1 then fsUnlink fs dest else fs
        .ok (c1, fsWrite fs1 dest data)

/-- The loop of `Container.commit` over the snapshot of the dirtied
set. -/
def Container.commit_list (ser : Nat → String → Bool → List Nat) (keep_parsed : Bool) :
    Container → FS → List String → Except PyErr (Container × FS)
  | c, fs, [] => .ok (c, fs)
  | c, fs, n :: rest =>
    match Container.commit_item ser c fs n keep_parsed with
    | .error e => .error e
    | .ok (c2, fs2) => Container.commit_list ser keep_parsed c2 fs2 rest

/-- Method `Container.commit` (lines 768-770); the base container
ignores the output path. The iteration order over the Python set is
unspecified; the model iterates the list in order. -/
def Container.commit (ser : Nat → String → Bool → List Nat) (c : Container) (fs : FS)
    (keep_parsed : Bool) : Except PyErr (Container × FS) :=
  Container.commit_list ser keep_parsed c fs c.dirtied

/-- The temporary sibling used by the copy-on-write decoupling in
`open` (`path + 'xxx'`). -/
def tempPath (p : FPath) : FPath :=
  p.dropLast ++ [(p.getLast?.getD "") ++ "xxx"]

/-- Method `Container.open` (lines 747-766); named `open_file` because
`open` is a Lean keyword. Returns the path of the opened handle; a write
mode truncates or creates the file as `open(path, 'wb')` does (append
modes are not used by the repository and are not modelled). -/
def Container.open_file (ser : Nat → String → Bool → List Nat) (c : Container) (fs : FS)
    (name : String) (mode : String) : Except PyErr (Container × FS × FPath) :=
  let step1 : Except PyErr (Container × FS) :=
    if name ∈ c.dirtied then Container.commit_item ser c fs name false else .ok (c, fs)
  match step1 with
  | .error e => .error e
  | .ok (c1, fs1) =>
    let c2 := { c1 with parsed_cache := aerase c1.parsed_cache name }
    let path := name_to_abspath c2.root name
    let base := path.dropLast
    if fsExists fs1 base then
      let fs2 :=
        if c2.cloned ∧ ¬ (mode = "r" ∨ mode = "rb") ∧ fsExists fs1 path
            ∧ nlinks_file fs1 path > 1 then
          fsRename (fsUnlink (fsCopyFile fs1 path (tempPath path)) path) (tempPath path) path
        else fs1
      if mode = "r" ∨ mode = "rb" then
        if fsIsFile fs2 path then .ok (c2, fs2, path) else .error .ioErr
      else .ok (c2, fsWrite fs2 path [], path)
    else
      let fs2 := fsMakedirs fs1 base
      if mode = "r" ∨ mode = "rb" then
        if fsIsFile fs2 path then .ok (c2, fs2, path) else .error .ioErr
      else .ok (c2, fsWrite fs2 path [], path)

/-- Method `Container.raw_data` (lines 426-431): read through `open`,
decoding when the MIME is text-like. The result is bytes or decoded
text, as in Python. -/
def Container.raw_data (ser : Nat → String → Bool → List Nat) (sniff : List Nat → String)
    (c : Container) (fs : FS) (name : String) (decode : Bool) :
    Except PyErr (Container × FS × (List Nat ⊕ String)) :=
  match Container.open_file ser c fs name "rb" with
  | .error e => .error e
  | .ok (c1, fs1, path) =>
    match fsRead fs1 path with
    | none => .error .ioErr
    | some bytes =>
      let mime := (alookup c1.mime_map name).getD (Calibre.guess_type name)
      if decode ∧ (mime ∈ OEB_STYLES ∨ mime ∈ OEB_DOCS
          ∨ hasSuffixStr mime "+xml" ∨ hasSuffixStr mime "/xml") then
        .ok (c1, fs1, Sum.inr (Container.decode sniff bytes))
      else
        .ok (c1, fs1, Sum.inl bytes)

/-- Python 2 equality between a decoded-or-raw result and a byte
string: `unicode == bytes` holds when the bytes are the ASCII encoding
of the text. -/
def rawEq : (List Nat ⊕ String) → List Nat → Bool
  | Sum.inl bs, d => bs = d
  | Sum.inr s, d => (d.all (fun b => b < 128)) && (s.data.map Char.toNat = d)

/-- Method `Container.rename` (lines 211-256). The emptied-ancestor
cleanup (`os.rmdir` loop) only prunes the directory set and is not
modelled; the link rebasing performed by the external `LinkRebaser` when
the directory changes mutates the parsed artifact, modelled here by the
dirty mark alone. -/
def Container.rename (ser : Nat → String → Bool → List Nat) (c : Container) (fs : FS)
    (current_name new_name : String) : Except PyErr (Container × FS) :=
  if current_name ∈ c.names_that_must_not_be_changed then
    .error (.valueErr "Renaming of this name is not allowed")
  else if fsExists fs (name_to_abspath c.root new_name)
      ∧ (new_name = current_name ∨ strLower new_name ≠ strLower current_name) then
    .error (.valueErr "Cannot rename as the destination already exists")
  else
    let new_path := name_to_abspath c.root new_name
    let base := new_path.dropLast
    if fsIsFile fs base then
      .error (.valueErr "Cannot rename as the destination parent is a file")
    else
      let fs1 := if fsExists fs base then fs else fsMakedirs fs base
      let old_path := name_to_abspath c.root current_name
      match Container.commit_item ser c fs1 current_name false with
      | .error e => .error e
      | .ok (c1, fs2) =>
        if fsIsFile fs2 old_path then
          let fs3 := fsRename fs2 old_path new_path
          let c2 := { c1 with mime_map :=
            (match alookup c1.mime_map current_name with
             | some m => ainsert c1.mime_map new_name m
             | none => c1.mime_map) }
          let c3 := { c2 with name_path_map := ainsert c2.name_path_map new_name new_path }
          let c4 := { c3 with
            parsed_cache := aerase c3.parsed_cache current_name,
            mime_map := aerase c3.mime_map current_name,
            name_path_map := aerase c3.name_path_map current_name,
            dirtied := c3.dirtied.filter (fun x => x ≠ current_name),
            pretty_print := c3.pretty_print.filter (fun x => x ≠ current_name) }
          let c5 := if current_name = c4.opf_name then { c4 with opf_name := new_name } else c4
          let c6 := if old_path.dropLast ≠ new_path.dropLast
                    then Container.dirty c5 new_name else c5
          .ok (c6, fs3)
        else .error .ioErr

/-- Body of `Container.remove_item` (lines 553-596), which never fails:
manifest items whose href resolves to the name are removed, freed ids
are purged from the spine `toc` attribute, the spine itemrefs and the
cover metas, optionally the guide references, then the file and every
cache entry for the name are dropped. -/
def Container.remove_item_base (c : Container) (fs : FS) (name : String)
    (remove_from_guide : Bool) : Container × FS :=
  let hrefMatches : ManifestItem → Bool := fun it =>
    match it.href with
    | some h => href_to_name c.root h (some c.opf_name) = some name
    | none => false
  let matched := c.opf.manifest.filter hrefMatches
  let removed := matched.filterMap ManifestItem.id
  let manifest2 := c.opf.manifest.filter (fun it => ¬ hrefMatches it)
  let spineToc2 := match c.opf.spineToc with
    | some t => if removed ≠ [] ∧ t ≠ "" ∧ t ∈ removed then none else some t
    | none => none
  let spine2 :=
    if removed ≠ [] then
      c.opf.spine.filter (fun it => match it.idref with
        | some r => ¬ r ∈ removed
        | none => true)
    else c.opf.spine
  let metas2 :=
    if removed ≠ [] then
      c.opf.metas.filter (fun m => !(decide (m.nameAttr = some "cover")
        && (match m.content with
            | some v => decide (v ∈ removed)
            | none => false)))
    else c.opf.metas
  let guideMatches : GuideRef → Bool := fun g =>
    match g.href with
    | some h => href_to_name c.root h (some c.opf_name) = some name
    | none => false
  let guide2 := if remove_from_guide then c.opf.guide.filter (fun g => ¬ guideMatches g)
                else c.opf.guide
  let anyOpfChange := matched ≠ [] ∨ (remove_from_guide ∧ c.opf.guide.filter guideMatches ≠ [])
  let c1 := { c with opf := { c.opf with
    manifest := manifest2, spine := spine2,
    spineToc := spineToc2, metas := metas2, guide := guide2 } }
  let c2 := if anyOpfChange then Container.dirty c1 c1.opf_name else c1
  let fs2 := match alookup c2.name_path_map name with
    | some path => if path ≠ [] ∧ fsExists fs path then fsUnlink fs path else fs
    | none => fs
  let c3 := { c2 with
    name_path_map := aerase c2.name_path_map name,
    mime_map := aerase c2.mime_map name,
    parsed_cache := aerase c2.parsed_cache name,
    dirtied := c2.dirtied.filter (fun x => x ≠ name),
    encryption := if name = "META-INF/encryption.xml" then none else c2.encryption }
  (c3, fs2)

/-- Method `remove_item`: the EPUB binding (lines 892-910) first clears
or edits the obfuscated-font table and the parsed encryption document,
then delegates to the base behaviour; other bindings go straight to the
base. Parsing `META-INF/encryption.xml` when it is unavailable is the
only failure (a `KeyError` from `self.name_path_map[...]`, not a
precondition error). -/
def Container.remove_item (c : Container) (fs : FS) (name : String)
    (remove_from_guide : Bool) : Except PyErr (Container × FS) :=
  if c.kind = .epub then
    let c0 := if name = "META-INF/encryption.xml"
              then { c with obfuscated_fonts := [] } else c
    if (alookup c0.obfuscated_fonts name).isSome then
      let c1 := { c0 with obfuscated_fonts := aerase c0.obfuscated_fonts name }
      match c1.encryption with
      | none => .error .keyErr
      | some entries =>
        let entryMatches : EncMethodEntry → Bool := fun em =>
          (em.algorithm = ADOBE_OBFUSCATION ∨ em.algorithm = IDPF_OBFUSCATION)
          && (match em.cipherURI with
              | some uri => href_to_name c1.root uri none = some name
              | none => false)
        let entries2 := entries.filter (fun em => ¬ entryMatches em)
        let c2 := { c1 with encryption := some entries2 }
        let c3 := if entries.filter entryMatches ≠ []
                  then Container.dirty c2 "META-INF/encryption.xml" else c2
        .ok (Container.remove_item_base c3 fs name remove_from_guide)
    else .ok (Container.remove_item_base c0 fs name remove_from_guide)
  else .ok (Container.remove_item_base c fs name remove_from_guide)

/-- Href collision loop of `generate_item`:
`while href in all_names or exists(href): c += 1; href = base_c.ext`. -/
def freshHrefLoop (taken : List String) (existsF : String → Bool) (base ext : String) :
    Nat → Nat → String → String
  | 0, _, href => href
  | fuel + 1, cnt, href =>
    if href ∈ taken ∨ existsF href then
      freshHrefLoop taken existsF base ext fuel (cnt + 1)
        (base ++ "_" ++ natDecimal (cnt + 1) ++ "." ++ ext)
    else href

/-- Method `Container.generate_item` (lines 652-692). Note that the
default media type comes from the module-level `guess_type`, not the
method `self.guess_type`. -/
def Container.generate_item (c : Container) (fs : FS) (name : String)
    (idPrefix : Option String) (media_type : Option String) :
    Except PyErr (Container × FS × ManifestItem) :=
  let idPre := match idPrefix with
    | some p => if p = "" then "id" else p
    | none => "id"
  let mt := match media_type with
    | some m => if m = "" then Calibre.guess_type name else m
    | none => Calibre.guess_type name
  let href0 := name_to_href c.root name (some c.opf_name)
  let pe := rpartitionChar '.' href0
  let item_id := freshId c.opf.allIds idPre
  let allNames := c.opf.manifest.filterMap ManifestItem.href
  let existsF : String → Bool := fun h =>
    match href_to_name c.root h (some c.opf_name) with
    | some nm => Container.exists_name c fs nm
    | none => false
  let href := freshHrefLoop allNames existsF pe.1 pe.2
    (allNames.length + fs.files.length + fs.dirs.length + 1) 0 href0
  let item : ManifestItem := ⟨some item_id, some href, some mt⟩
  let c1 := Container.dirty
    { c with opf := { c.opf with manifest := c.opf.manifest ++ [item] } } c.opf_name
  match href_to_name c1.root href (some c1.opf_name) with
  | none => .error .keyErr
  | some nm =>
    let path := name_to_abspath c1.root nm
    let c2 := { c1 with name_path_map := ainsert c1.name_path_map nm path,
                        mime_map := ainsert c1.mime_map nm mt }
    let base := path.dropLast
    let fs1 := if fsExists fs base then fs else fsMakedirs fs base
    .ok (c2, fsWrite fs1 path [], item)

/-! ## Font obfuscation processing (`EpubContainer.process_encryption`) -/

/-- First loop of `process_encryption`: every `EncryptionMethod` whose
algorithm is not a known obfuscation scheme raises `DRMError`; entries
without a `CipherReference`, with an unresolvable URI or an unknown name
are skipped; the rest are collected as fonts. -/
def collectFonts (root : List String) (npm : List (String × FPath)) :
    List EncMethodEntry → Except PyErr (List (String × String))
  | [] => .ok []
  | em :: rest =>
    if em.algorithm = ADOBE_OBFUSCATION ∨ em.algorithm = IDPF_OBFUSCATION then
      match em.cipherURI with
      | none => collectFonts root npm rest
      | some uri =>
        match href_to_name root uri none with
        | none => collectFonts root npm rest
        | some nm =>
          match alookup npm nm with
          | none => collectFonts root npm rest
          | some _ =>
            match collectFonts root npm rest with
            | .error e => .error e
            | .ok fonts => .ok ((nm, em.algorithm) :: fonts)
    else .error .drm

/-- The Adobe-key loop: scan the metadata identifiers; a matching
identifier (scheme `uuid`, or text starting with `urn:uuid:`) sets the
key to the parsed UUID bytes, unparseable text resets it to none; the
last match wins. -/
def adobeKeyLoop (uuidParse : String → Option (List Nat)) :
    List MetaIdent → Option (List Nat) → Option (List Nat)
  | [], acc => acc
  | item :: rest, acc =>
    let scheme := ((item.attrs.filter (fun kv => hasSuffixStr kv.1 "scheme")).getLast?).map
      Prod.snd
    let isMatch : Bool :=
      (match scheme with
       | some sc => decide (sc ≠ "" ∧ strLower sc = "uuid")
       | none => false)
      || (match item.text with
          | some t => decide (t ≠ "") && hasPrefixStr t "urn:uuid:"
          | none => false)
    if isMatch then
      let newKey := match item.text with
        | some t => uuidParse (afterLastColon t)
        | none => none
      adobeKeyLoop uuidParse rest newKey
    else adobeKeyLoop uuidParse rest acc

/-- The font-decryption loop at the end of `process_encryption`:
missing keys abort with `InvalidBook`, otherwise each font file is
XOR-decrypted in place and recorded with its key. -/
def applyFontKeys (decryptFont : List Nat → String → List Nat → List Nat)
    (adobeKey idpfKey : Option (List Nat)) (npm : List (String × FPath)) :
    List (String × String) → FS → List (String × String × List Nat)
    → Except PyErr (FS × List (String × String × List Nat))
  | [], fs, acc => .ok (fs, acc)
  | (font, alg) :: rest, fs, acc =>
    let tkey := if alg = ADOBE_OBFUSCATION then adobeKey else idpfKey
    match tkey with
    | none => .error (.invalidBook "Failed to find obfuscation key")
    | some k =>
      if k = [] then .error (.invalidBook "Failed to find obfuscation key")
      else
        match alookup npm font with
        | none => .error .keyErr
        | some path =>
          match fsRead fs path with
          | none => .error .ioErr
          | some bytes =>
            applyFontKeys decryptFont adobeKey idpfKey npm rest
              (fsWrite fs path (decryptFont k alg bytes)) (acc ++ [(font, alg, k)])

/-- Method `EpubContainer.process_encryption` (lines 912-964). The
external primitives are parameters: `sha1` (hashlib), `uuidParse`
(`uuid.UUID(...).bytes`, none when parsing fails) and `decryptFont`
(the XOR primitive). -/
def Container.process_encryption (sha1 : String → List Nat)
    (uuidParse : String → Option (List Nat))
    (decryptFont : List Nat → String → List Nat → List Nat)
    (c : Container) (fs : FS) : Except PyErr (Container × FS) :=
  match c.encryption with
  | none => .error .keyErr
  | some entries =>
    match collectFonts c.root c.name_path_map entries with
    | .error e => .error e
    | .ok fonts =>
      if fonts = [] then .ok (c, fs)
      else
        let package_id := ((c.opf.packageAttrib.find?
          (fun kv => hasSuffixStr kv.1 "unique-identifier")).map Prod.snd)
        let unique_identifier : Option String := match package_id with
          | none => none
          | some pid =>
            match c.opf.otherIdTexts.find? (fun it => decide (it.1 = pid)
                && (match it.2 with
                    | some t => decide (t ≠ "")
                    | none => false)) with
            | some it => (it.2).map afterLastColon
            | none => none
        let idpfKey := unique_identifier.map sha1
        let adobe := adobeKeyLoop uuidParse c.opf.identifiers none
        match applyFontKeys decryptFont adobe idpfKey c.name_path_map fonts fs [] with
        | .error e => .error e
        | .ok (fs2, obf) => .ok ({ c with obfuscated_fonts := obf }, fs2)

/-- The encryption step of `EpubContainer.__init__` (lines 848-851):
process obfuscation exactly when `META-INF/encryption.xml` is among the
extracted names. -/
def Container.init_encryption (sha1 : String → List Nat)
    (uuidParse : String → Option (List Nat))
    (decryptFont : List Nat → String → List Nat → List Nat)
    (c : Container) (fs : FS) : Except PyErr (Container × FS) :=
  if (alookup c.name_path_map "META-INF/encryption.xml").isSome then
    Container.process_encryption sha1 uuidParse decryptFont c fs
  else .ok (c, fs)

/-! ## The AZW3 open-time checks (`AZW3Container.__init__`) -/

/-- The MOBI metadata header as consumed by the open checks: the
encryption type and the KF8 variant (`None`, `'joint'` or a standalone
marker). -/
structure MobiHeader where
  encryption_type : Nat
  kf8_type : Option String
deriving DecidableEq

/-- The inputs the open-time checks inspect: the first three bytes of
the file and the parsed header (`none` when `MetadataHeader` raised
`MobiError`). -/
structure MobiInput where
  first3 : List Nat
  header : Option MobiHeader
deriving DecidableEq

/-- The open-time validation of `AZW3Container.__init__`
(lines 1044-1068): Topaz, unparseable, DRM-encrypted, KF8-less and
joint files are rejected in that order. -/
def azw3_open_check (inp : MobiInput) : Except PyErr MobiHeader :=
  if inp.first3 = [84, 80, 90] then
    .error (.invalidBook "This is not a MOBI file. It is a Topaz file.")
  else
    match inp.header with
    | none => .error (.invalidBook "This is not a MOBI file.")
    | some h =>
      if h.encryption_type ≠ 0 then .error .drm
      else
        match h.kf8_type with
        | none => .error (.invalidBook "This MOBI file does not contain a KF8 format book.")
        | some t =>
          if t = "joint" then
            .error (.invalidBook "This MOBI file contains both KF8 and older Mobi6 data.")
          else .ok h

/-! ## Further filesystem lemmas for the copy-on-write proofs -/

theorem fsWrite_dirs (fs : FS) (p : FPath) (d : List Nat) :
    (fsWrite fs p d).dirs = fs.dirs := by
  unfold fsWrite
  cases fsInode fs p <;> rfl

theorem fsRead_write_self (fs : FS) (p : FPath) (d : List Nat) :
    fsRead (fsWrite fs p d) p = some d := by
  unfold fsRead fsWrite
  cases hp : fsInode fs p with
  | some i =>
    show (fsInode { fs with data := fun j => if j = i then d else fs.data j } p).map
      (fun j => if j = i then d else fs.data j) = some d
    have : fsInode { fs with data := fun j => if j = i then d else fs.data j } p
        = some i := hp
    rw [this]
    show some (if i = i then d else fs.data i) = some d
    rw [if_pos rfl]
  | none =>
    show (alookup ((p, fs.fresh) :: fs.files) p).map
      (fun j => if j = fs.fresh then d else fs.data j) = some d
    show ((if p = p then some fs.fresh else alookup fs.files p).map
      (fun j => if j = fs.fresh then d else fs.data j)) = some d
    rw [if_pos rfl]
    show some (if fs.fresh = fs.fresh then d else fs.data fs.fresh) = some d
    rw [if_pos rfl]

theorem fsIsFile_write_self (fs : FS) (p : FPath) (d : List Nat) :
    fsIsFile (fsWrite fs p d) p = true := by
  have h := fsRead_write_self fs p d
  unfold fsRead at h
  unfold fsIsFile
  cases hq : fsInode (fsWrite fs p d) p with
  | some i => rfl
  | none => rw [hq] at h; cases h

theorem fsExists_write_ne (fs : FS) (p q : FPath) (d : List Nat) (hq : q ≠ p) :
    fsExists (fsWrite fs p d) q = fsExists fs q := by
  unfold fsExists fsIsFile
  rw [fsInode_write_ne fs p q d hq, fsWrite_dirs]

theorem fsExists_of_mem_dirs (fs : FS) (p : FPath) (h : p ∈ fs.dirs) :
    fsExists fs p = true := by
  unfold fsExists
  have : fs.dirs.contains p = true := List.elem_eq_true_of_mem h
  rw [this, Bool.or_true]

theorem fsRead_rename_ne (fs : FS) (src dst q : FPath) (h1 : q ≠ src) (h2 : q ≠ dst) :
    fsRead (fsRename fs src dst) q = fsRead fs q := by
  unfold fsRename
  cases hs : fsInode fs src with
  | none => rfl
  | some i =>
    unfold fsRead
    show (alookup ((dst, i) :: aerase (aerase fs.files src) dst) q).map fs.data
      = (fsInode fs q).map fs.data
    show ((if dst = q then some i else alookup (aerase (aerase fs.files src) dst) q).map
      fs.data) = (fsInode fs q).map fs.data
    rw [if_neg (fun he => h2 he.symm),
      alookup_aerase_ne _ dst q (fun he => h2 he.symm),
      alookup_aerase_ne _ src q (fun he => h1 he.symm)]
    rfl

theorem nlinks_pos_inode (fs : FS) (p : FPath) (h : nlinks_file fs p > 0) :
    ∃ i, fsInode fs p = some i := by
  cases hp : fsInode fs p with
  | some i => exact ⟨i, rfl⟩
  | none =>
    exfalso
    unfold nlinks_file at h
    rw [hp] at h
    exact Nat.lt_irrefl 0 h

theorem nlinks_unlink_self (fs : FS) (p : FPath) :
    nlinks_file (fsUnlink fs p) p = 0 := by
  unfold nlinks_file fsUnlink fsInode
  show (match alookup (aerase fs.files p) p with
    | some i => ((aerase fs.files p).filter (fun q => q.2 = i)).length
    | none => 0) = 0
  rw [alookup_aerase fs.files p]

theorem isfile_false_nlinks (fs : FS) (p : FPath) (h : fsIsFile fs p = false) :
    nlinks_file fs p = 0 := by
  unfold fsIsFile at h
  unfold nlinks_file
  cases hp : fsInode fs p with
  | some i => rw [hp] at h; cases h
  | none => rfl

theorem isfile_false_of_no_parent (fs : FS) (p : FPath) (hwf : FSWF fs)
    (h : fsExists fs p.dropLast = false) : fsIsFile fs p = false := by
  unfold fsIsFile
  cases hp : fsInode fs p with
  | none => rfl
  | some i =>
    exfalso
    have hmem := hwf.parent (p, i) (alookup_mem _ _ _ hp)
    have := fsExists_of_mem_dirs fs p.dropLast hmem
    rw [this] at h
    cases h

theorem string_length_append (a b : String) : (a ++ b).length = a.length + b.length := by
  show (a.data ++ b.data).length = a.data.length + b.data.length
  exact List.length_append a.data b.data

theorem tempPath_ne (p : FPath) : tempPath p ≠ p := by
  intro h
  cases hl : p.getLast? with
  | none =>
    rw [List.getLast?_eq_none_iff] at hl
    subst hl
    cases h
  | some a =>
    have h2 : (tempPath p).getLast? = some (a ++ "xxx") := by
      unfold tempPath
      rw [hl]
      exact List.getLast?_concat _
    rw [h] at h2
    rw [hl] at h2
    injection h2 with h3
    have h4 : a.length = (a ++ "xxx").length := by rw [← h3]
    rw [string_length_append] at h4
    have : ("xxx" : String).length = 3 := by decide
    omega

/-- Reads at uninvolved paths across the full decoupling sequence of
`open`: copy the file to the temporary sibling, unlink the original,
rename the temporary into place, then write. -/
theorem decouple_reads (fs : FS) (path q : FPath) (d : List Nat)
    (hwf : FSWF fs) (hfile : fsIsFile fs path = true)
    (htemp : fsIsFile fs (tempPath path) = false)
    (hq1 : q ≠ path) (hq2 : q ≠ tempPath path) :
    fsRead (fsWrite (fsRename (fsUnlink (fsCopyFile fs path (tempPath path)) path)
      (tempPath path) path) path d) q = fsRead fs q := by
  have htp : tempPath path ≠ path := tempPath_ne path
  unfold fsIsFile at hfile htemp
  cases hp : fsInode fs path with
  | none => rw [hp] at hfile; cases hfile
  | some i =>
  have hread : fsRead fs path = some (fs.data i) := by
    unfold fsRead
    rw [hp]
    rfl
  cases ht : fsInode fs (tempPath path) with
  | some j => rw [ht] at htemp; cases htemp
  | none =>
  have hcopy : fsCopyFile fs path (tempPath path)
      = FS.mk ((tempPath path, fs.fresh) :: fs.files)
          (fun j => if j = fs.fresh then fs.data i else fs.data j) fs.dirs (fs.fresh + 1) := by
    unfold fsCopyFile
    rw [hread]
    show fsWrite fs (tempPath path) (fs.data i) = _
    unfold fsWrite
    rw [ht]
  rw [hcopy]
  have hunl : fsUnlink (FS.mk ((tempPath path, fs.fresh) :: fs.files)
          (fun j => if j = fs.fresh then fs.data i else fs.data j) fs.dirs (fs.fresh + 1))
        path
      = FS.mk ((tempPath path, fs.fresh) :: aerase fs.files path)
          (fun j => if j = fs.fresh then fs.data i else fs.data j) fs.dirs (fs.fresh + 1) := by
    unfold fsUnlink
    show FS.mk (aerase ((tempPath path, fs.fresh) :: fs.files) path) _ _ _ = _
    unfold aerase
    rw [List.filter_cons]
    rw [if_pos (by simp [htp])]
  rw [hunl]
  have hiB : fsInode (FS.mk ((tempPath path, fs.fresh) :: aerase fs.files path)
          (fun j => if j = fs.fresh then fs.data i else fs.data j) fs.dirs (fs.fresh + 1))
        (tempPath path) = some fs.fresh := by
    unfold fsInode
    show (if tempPath path = tempPath path then some fs.fresh else _) = some fs.fresh
    rw [if_pos rfl]
  have hren : fsRename (FS.mk ((tempPath path, fs.fresh) :: aerase fs.files path)
          (fun j => if j = fs.fresh then fs.data i else fs.data j) fs.dirs (fs.fresh + 1))
        (tempPath path) path
      = FS.mk ((path, fs.fresh) ::
            aerase (aerase ((tempPath path, fs.fresh) :: aerase fs.files path)
              (tempPath path)) path)
          (fun j => if j = fs.fresh then fs.data i else fs.data j) fs.dirs (fs.fresh + 1) := by
    unfold fsRename
    rw [hiB]
  rw [hren]
  have hiC : fsInode (FS.mk ((path, fs.fresh) ::
            aerase (aerase ((tempPath path, fs.fresh) :: aerase fs.files path)
              (tempPath path)) path)
          (fun j => if j = fs.fresh then fs.data i else fs.data j) fs.dirs (fs.fresh + 1))
        path = some fs.fresh := by
    unfold fsInode
    show (if path = path then some fs.fresh else _) = some fs.fresh
    rw [if_pos rfl]
  unfold fsWrite
  rw [hiC]
  unfold fsRead fsInode
  show (alookup ((path, fs.fresh) ::
        aerase (aerase ((tempPath path, fs.fresh) :: aerase fs.files path)
          (tempPath path)) path) q).map
      (fun j => if j = fs.fresh then d
        else if j = fs.fresh then fs.data i else fs.data j)
    = (alookup fs.files q).map fs.data
  show ((if path = q then some fs.fresh else
      alookup (aerase (aerase ((tempPath path, fs.fresh) :: aerase fs.files path)
        (tempPath path)) path) q).map
      (fun j => if j = fs.fresh then d
        else if j = fs.fresh then fs.data i else fs.data j))
    = (alookup fs.files q).map fs.data
  rw [if_neg (fun he => hq1 he.symm)]
  rw [alookup_aerase_ne _ path q (fun he => hq1 he.symm)]
  rw [alookup_aerase_ne _ (tempPath path) q (fun he => hq2 he.symm)]
  show ((if tempPath path = q then some fs.fresh else alookup (aerase fs.files path) q).map
      (fun j => if j = fs.fresh then d
        else if j = fs.fresh then fs.data i else fs.data j))
    = (alookup fs.files q).map fs.data
  rw [if_neg (fun he => hq2 he.symm)]
  rw [alookup_aerase_ne _ path q (fun he => hq1 he.symm)]
  cases hquj : alookup fs.files q with
  | none => rfl
  | some j =>
    have hjb : j < fs.fresh := hwf.bound (q, j) (alookup_mem _ _ _ hquj)
    show some (if j = fs.fresh then d else if j = fs.fresh then fs.data i else fs.data j)
      = some (fs.data j)
    rw [if_neg (by omega), if_neg (by omega)]

/-! ## Claim C1 -/

/-- C1: in a cloned container, a write through `commit_item` of a
dirtied name, or through `open` in a write mode, first decouples a
multiply-linked target, so the bytes readable at every other path (in
particular every path of the source container's working directory) are
unchanged. -/
theorem cloned_container_writes_preserve_other_files
    (ser : Nat → String → Bool → List Nat) (c : Container) (fs : FS) (name : String)
    (q : FPath) (hwf : FSWF fs) (hcl : c.cloned = true) :
    (∀ keep c2 fs2, Container.commit_item ser c fs name keep = .ok (c2, fs2) →
       (∀ dest, alookup c.name_path_map name = some dest → q ≠ dest) →
       fsRead fs2 q = fsRead fs q)
    ∧ (∀ c2 fs2 p, Container.open_file ser c fs name "wb" = .ok (c2, fs2, p) →
       name ∉ c.dirtied →
       fsIsFile fs (tempPath (name_to_abspath c.root name)) = false →
       q ≠ name_to_abspath c.root name →
       q ≠ tempPath (name_to_abspath c.root name) →
       fsRead fs2 q = fsRead fs q) := by
  constructor
  · intro keep c2 fs2 hok hq
    unfold Container.commit_item at hok
    cases hpc : alookup c.parsed_cache name with
    | none =>
      rw [hpc] at hok
      injection hok with h
      injection h with h1 h2
      rw [← h2]
    | some art =>
      rw [hpc] at hok
      cases hmm : alookup c.mime_map name with
      | none => rw [hmm] at hok; cases hok
      | some mime =>
        rw [hmm] at hok
        dsimp only at hok
        cases hnp : alookup c.name_path_map name with
        | none => rw [hnp] at hok; cases hok
        | some dest =>
          rw [hnp] at hok
          dsimp only at hok
          have hqd : q ≠ dest := hq dest hnp
          by_cases hnl : nlinks_file fs dest > 1
          · rw [if_pos (show c.cloned = true ∧ nlinks_file fs dest > 1 from ⟨hcl, hnl⟩)]
              at hok
            injection hok with h
            injection h with h1 h2
            rw [← h2]
            rw [fsRead_write_ne (fsUnlink fs dest) dest q _ (FSWF_unlink fs dest hwf) hqd
              (Or.inr (by rw [nlinks_unlink_self]; omega))]
            exact fsRead_unlink_ne fs dest q hqd
          · rw [if_neg (show ¬ (c.cloned = true ∧ nlinks_file fs dest > 1) from
              fun hcon => hnl hcon.2)] at hok
            injection hok with h
            injection h with h1 h2
            rw [← h2]
            exact fsRead_write_ne fs dest q _ hwf hqd (Or.inr (by omega))
  · intro c2 fs2 p hok hndirt htempf hq1 hq2
    unfold Container.open_file at hok
    dsimp only at hok
    rw [if_neg hndirt] at hok
    dsimp only at hok
    by_cases hbase : fsExists fs (name_to_abspath c.root name).dropLast = true
    · rw [if_pos hbase] at hok
      rw [if_neg (show ¬ (("wb" : String) = "r" ∨ ("wb" : String) = "rb") by decide)]
        at hok
      by_cases hdec : fsExists fs (name_to_abspath c.root name) = true
          ∧ nlinks_file fs (name_to_abspath c.root name) > 1
      · rw [if_pos (show c.cloned = true
            ∧ ¬ (("wb" : String) = "r" ∨ ("wb" : String) = "rb")
            ∧ fsExists fs (name_to_abspath c.root name) = true
            ∧ nlinks_file fs (name_to_abspath c.root name) > 1 from
              ⟨hcl, by decide, hdec.1, hdec.2⟩)] at hok
        injection hok with h
        injection h with h1 h2
        injection h2 with h2a h2b
        rw [← h2a]
        have hfile : fsIsFile fs (name_to_abspath c.root name) = true := by
          obtain ⟨i, hi⟩ := nlinks_pos_inode fs (name_to_abspath c.root name) (by have := hdec.2; omega)
          unfold fsIsFile
          rw [hi]
          rfl
        exact decouple_reads fs (name_to_abspath c.root name) q [] hwf hfile htempf hq1 hq2
      · rw [if_neg (show ¬ (c.cloned = true
            ∧ ¬ (("wb" : String) = "r" ∨ ("wb" : String) = "rb")
            ∧ fsExists fs (name_to_abspath c.root name) = true
            ∧ nlinks_file fs (name_to_abspath c.root name) > 1) from
              fun hcon => hdec ⟨hcon.2.2.1, hcon.2.2.2⟩)] at hok
        injection hok with h
        injection h with h1 h2
        injection h2 with h2a h2b
        rw [← h2a]
        have hle : nlinks_file fs (name_to_abspath c.root name) ≤ 1 := by
          by_cases hex : fsExists fs (name_to_abspath c.root name) = true
          · by_cases hgt : nlinks_file fs (name_to_abspath c.root name) > 1
            · exact absurd ⟨hex, hgt⟩ hdec
            · omega
          · have hif : fsIsFile fs (name_to_abspath c.root name) = false := by
              unfold fsExists at hex
              cases hif2 : fsIsFile fs (name_to_abspath c.root name) with
              | false => rfl
              | true => rw [hif2] at hex; simp at hex
            rw [isfile_false_nlinks fs _ hif]
            omega
        exact fsRead_write_ne fs _ q _ hwf hq1 (Or.inr hle)
    · rw [if_neg hbase] at hok
      rw [if_neg (show ¬ (("wb" : String) = "r" ∨ ("wb" : String) = "rb") by decide)]
        at hok
      injection hok with h
      injection h with h1 h2
      injection h2 with h2a h2b
      rw [← h2a]
      have hnl0 : nlinks_file (fsMakedirs fs (name_to_abspath c.root name).dropLast)
          (name_to_abspath c.root name) ≤ 1 := by
        have hif : fsIsFile fs (name_to_abspath c.root name) = false :=
          isfile_false_of_no_parent fs _ hwf (by
            cases hb2 : fsExists fs (name_to_abspath c.root name).dropLast with
            | false => rfl
            | true => exact absurd hb2 hbase)
        have : nlinks_file (fsMakedirs fs (name_to_abspath c.root name).dropLast)
            (name_to_abspath c.root name) = nlinks_file fs (name_to_abspath c.root name) :=
          rfl
        rw [this, isfile_false_nlinks fs _ hif]
        omega
      rw [fsRead_write_ne (fsMakedirs fs (name_to_abspath c.root name).dropLast)
        (name_to_abspath c.root name) q []
        (FSWF_makedirs fs _ hwf) hq1 (Or.inr hnl0)]
      exact fsRead_makedirs fs _ q

/-! ## Claim C2 -/

/-- The container state after `commit_item` serialises a cached name:
the name leaves `dirtied` and (without `keep_parsed`) leaves
`parsed_cache`. -/
def commitStepC (c : Container) (n : String) : Container :=
  { c with
    dirtied := c.dirtied.filter (fun x => x ≠ n),
    parsed_cache := aerase c.parsed_cache n }

/-- One step of the commit loop: the fully-determined result of
`commit_item` on a cached name with a known mime type and path. -/
theorem commit_item_step (ser : Nat → String → Bool → List Nat) (c : Container) (fs : FS)
    (n : String) (art : Nat) (mime : String) (dest : FPath)
    (hpc : alookup c.parsed_cache n = some art)
    (hmm : alookup c.mime_map n = some mime)
    (hnp : alookup c.name_path_map n = some dest) :
    Container.commit_item ser c fs n false = .ok
      (commitStepC c n,
       fsWrite (if c.cloned = true ∧ nlinks_file fs dest > 1 then fsUnlink fs dest else fs)
         dest (ser art mime (n ∈ c.pretty_print))) := by
  unfold Container.commit_item
  rw [hpc]
  dsimp only
  rw [hmm]
  dsimp only
  rw [hnp]
  rfl

/-- The commit loop over a list of names: it succeeds whenever every
cached name in the list has a mime type and a path, and a name remains
dirty afterwards exactly when it was dirty before and was either not in
the list or not in the parse cache. -/
theorem commit_list_dirtied (ser : Nat → String → Bool → List Nat) (l : List String) :
    ∀ (c : Container) (fs : FS),
    (∀ n ∈ l, alookup c.parsed_cache n ≠ none →
       alookup c.mime_map n ≠ none ∧ alookup c.name_path_map n ≠ none) →
    ∃ c2 fs2, Container.commit_list ser false c fs l = .ok (c2, fs2)
      ∧ ∀ m, (m ∈ c2.dirtied ↔ m ∈ c.dirtied ∧ (m ∈ l → alookup c.parsed_cache m = none)) := by
  induction l with
  | nil =>
    intro c fs _
    refine ⟨c, fs, rfl, ?_⟩
    intro m
    constructor
    · intro hm
      exact ⟨hm, fun hml => absurd hml (List.not_mem_nil m)⟩
    · intro hm
      exact hm.1
  | cons n rest ih =>
    intro c fs h
    cases hpc : alookup c.parsed_cache n with
    | none =>
      have hstep : Container.commit_item ser c fs n false = .ok (c, fs) := by
        unfold Container.commit_item
        rw [hpc]
      obtain ⟨c2, fs2, hok, hiff⟩ := ih c fs (fun m hm => h m (List.mem_cons_of_mem n hm))
      refine ⟨c2, fs2, ?_, ?_⟩
      · unfold Container.commit_list
        rw [hstep]
        exact hok
      · intro m
        rw [hiff m]
        constructor
        · rintro ⟨hd, hc⟩
          refine ⟨hd, fun hml => ?_⟩
          rcases List.mem_cons.mp hml with he | hm2
          · rw [he]
            exact hpc
          · exact hc hm2
        · rintro ⟨hd, hc⟩
          exact ⟨hd, fun hm2 => hc (List.mem_cons_of_mem n hm2)⟩
    | some art =>
      have hne : alookup c.parsed_cache n ≠ none := by
        rw [hpc]
        exact fun he => nomatch he
      obtain ⟨hmm, hnp⟩ := h n (List.mem_cons_self n rest) hne
      cases hmmv : alookup c.mime_map n with
      | none => exact absurd hmmv hmm
      | some mime =>
      cases hnpv : alookup c.name_path_map n with
      | none => exact absurd hnpv hnp
      | some dest =>
      have hstep := commit_item_step ser c fs n art mime dest hpc hmmv hnpv
      have hpcC : ∀ m, m ≠ n →
          alookup (commitStepC c n).parsed_cache m = alookup c.parsed_cache m := by
        intro m hmn
        show alookup (aerase c.parsed_cache n) m = _
        exact alookup_aerase_ne c.parsed_cache n m (fun he => hmn he.symm)
      obtain ⟨c2, fs2, hok, hiff⟩ := ih (commitStepC c n)
        (fsWrite (if c.cloned = true ∧ nlinks_file fs dest > 1 then fsUnlink fs dest else fs)
          dest (ser art mime (n ∈ c.pretty_print)))
        (by
          intro m hm hmne
          by_cases hmn : m = n
          · exfalso
            apply hmne
            show alookup (aerase c.parsed_cache n) m = none
            rw [hmn]
            exact alookup_aerase c.parsed_cache n
          · rw [hpcC m hmn] at hmne
            exact h m (List.mem_cons_of_mem n hm) hmne)
      refine ⟨c2, fs2, ?_, ?_⟩
      · unfold Container.commit_list
        rw [hstep]
        exact hok
      · intro m
        rw [hiff m]
        have hd1 : m ∈ (commitStepC c n).dirtied ↔ m ∈ c.dirtied ∧ m ≠ n := by
          show m ∈ c.dirtied.filter (fun x => x ≠ n) ↔ _
          rw [List.mem_filter]
          simp
        rw [hd1]
        by_cases hmn : m = n
        · subst hmn
          constructor
          · rintro ⟨⟨hd, hne2⟩, _⟩
            exact absurd rfl hne2
          · rintro ⟨hd, hc⟩
            have := hc (List.mem_cons_self m rest)
            rw [hpc] at this
            cases this
        · constructor
          · rintro ⟨⟨hd, _⟩, hc⟩
            refine ⟨hd, fun hml => ?_⟩
            rcases List.mem_cons.mp hml with he | hm2
            · exact absurd he hmn
            · have := hc hm2
              rw [hpcC m hmn] at this
              exact this
          · rintro ⟨hd, hc⟩
            refine ⟨⟨hd, hmn⟩, fun hm2 => ?_⟩
            rw [hpcC m hmn]
            exact hc (List.mem_cons_of_mem n hm2)

/-- C2 (amended): `commit` empties the dirtied set provided every
dirtied name has an entry in `parsed_cache` (and its bookkeeping maps);
a dirtied name missing from the parse cache survives `commit`
untouched, because `commit_item` returns immediately for it. -/
theorem commit_empties_dirtied_of_all_cached (ser : Nat → String → Bool → List Nat)
    (c : Container) (fs : FS)
    (hcached : ∀ n ∈ c.dirtied, alookup c.parsed_cache n ≠ none)
    (hmaps : ∀ n ∈ c.dirtied, alookup c.mime_map n ≠ none
      ∧ alookup c.name_path_map n ≠ none) :
    ∃ c2 fs2, Container.commit ser c fs false = .ok (c2, fs2) ∧ c2.dirtied = [] := by
  obtain ⟨c2, fs2, hok, hiff⟩ := commit_list_dirtied ser c.dirtied c fs
    (fun n hn _ => hmaps n hn)
  refine ⟨c2, fs2, hok, ?_⟩
  rw [List.eq_nil_iff_forall_not_mem]
  intro m hm
  obtain ⟨hd, hc⟩ := (hiff m).mp hm
  exact hcached m hd (hc hd)

/-! ## Concrete demonstration data -/

/-- A trivial serializer standing in for `calibre.ebooks.oeb.polish.parsing.serialize`. -/
def ser0 : Nat → String → Bool → List Nat := fun _ _ _ => [1]

/-- A trivial encoding sniffer standing in for `xml_to_unicode`. -/
def sniff0 : List Nat → String := fun _ => ""

/-- An empty OPF document. -/
def opf0 : OPFDoc := ⟨[], [], [], none, [], [], [], []⟩

/-- A filesystem holding only the root directory `book`. -/
def fsBook : FS := ⟨[], fun _ => [], [[], ["book"]], 0⟩

/-- An OEB container with one dirtied name that has no cached parse. -/
def c2demo : Container :=
  ⟨.oeb, ["book"], false, "content.opf", opf0, [], [], [], ["x"], [], none, []⟩

/-- C2 counterexample: `commit` returns successfully yet the dirtied
set is untouched, because the dirtied name is absent from
`parsed_cache` and `commit_item` returns early for it. -/
theorem commit_does_not_empty_dirtied :
    Container.commit ser0 c2demo fsBook false = .ok (c2demo, fsBook)
    ∧ c2demo.dirtied = ["x"] ∧ c2demo.dirtied ≠ [] :=
  ⟨rfl, rfl, by decide⟩

/-- An OEB container whose single dirtied name is cached with a mime
type and a path. -/
def c2demoB : Container :=
  ⟨.oeb, ["book"], false, "content.opf", opf0,
   [("y", ["book", "y.css"])], [("y", "text/css")], [("y", 7)], ["y"], [], none, []⟩

/-- The dirtied set of a commit result (a sentinel on failure). -/
def commitDirtied (r : Except PyErr (Container × FS)) : List String :=
  match r with
  | .ok (c, _) => c.dirtied
  | .error _ => ["failed"]

theorem commit_empties_dirtied_witness :
    commitDirtied (Container.commit ser0 c2demoB fsBook false) = [] := by
  obtain ⟨c2, fs2, hok, hd⟩ := commit_empties_dirtied_of_all_cached ser0 c2demoB fsBook
    (by decide) (by decide)
  rw [hok]
  exact hd

/-! ## Claim C3 -/

/-- C3 counterexample: resolving the href `../x` against the container
root yields the name `../x`, which contains a `..` segment and whose
absolute path leaves the root directory. -/
theorem href_to_name_escape_counterexample :
    href_to_name ["books", "b"] "../x" none = some "../x"
    ∧ ".." ∈ splitSegs "../x"
    ∧ ¬ ["books", "b"] <+: name_to_abspath ["books", "b"] "../x" :=
  ⟨by decide, by decide, by decide⟩

/-- C3 (amended): a name returned by `href_to_name` contains no `..`
segment and resolves under the container root, provided the
percent-decoded path of the href itself contains no `..` segment (the
code applies no such check, so `..` in the href escapes the root). -/
theorem href_to_name_never_escapes (root : List String) (h : String) (base : Option String)
    (hr : cleanRoot root) (hbase : ∀ b, base = some b → validName b)
    (hnd : ".." ∉ splitSegs (urlunquote (urlparseModel h).path))
    (name : String) (hres : href_to_name root h base = some name) :
    ".." ∉ splitSegs name ∧ root <+: name_to_abspath root name :=
  href_to_name_no_escape_aux root h base hr hbase hnd name hres

theorem href_to_name_never_escapes_witness :
    ".." ∉ splitSegs "a/b.html" ∧ ["r"] <+: name_to_abspath ["r"] "a/b.html" :=
  href_to_name_never_escapes ["r"] "a/b.html" none (by decide)
    (fun b hb => nomatch hb) (by decide) "a/b.html" (by decide)

/-! ## Claim C4 -/

/-- C4: converting a valid name to an href against a valid base and
resolving it back yields the original name. -/
theorem name_href_roundtrip (root : List String) (n b : String)
    (hr : cleanRoot root) (hn : validName n) (hb : validName b) :
    href_to_name root (name_to_href root n (some b)) (some b) = some n :=
  href_name_roundtrip_aux root n b hr hn hb

theorem name_href_roundtrip_witness :
    href_to_name ["r"] (name_to_href ["r"] "x/y.html" (some "content.opf"))
      (some "content.opf") = some "x/y.html" :=
  name_href_roundtrip ["r"] "x/y.html" "content.opf" (by decide) (by decide) (by decide)

/-! ## Claim C5 -/

theorem dirty_opf (c : Container) (n : String) : (Container.dirty c n).opf = c.opf := rfl

theorem dirty_mime_map (c : Container) (n : String) :
    (Container.dirty c n).mime_map = c.mime_map := rfl

theorem dirty_dirtied (c : Container) (n : String) :
    (Container.dirty c n).dirtied
      = (if n ∈ c.dirtied then c.dirtied else n :: c.dirtied) := rfl

theorem opf_name_mem_need_not (c : Container) :
    c.opf_name ∈ c.names_that_need_not_be_manifested := by
  unfold Container.names_that_need_not_be_manifested
  cases c.kind with
  | epub => exact List.mem_cons_self _ _
  | oeb => exact List.mem_cons_self _ _
  | azw3 => exact List.mem_cons_self _ _

theorem names_need_not_update (c : Container) (A : List (String × FPath))
    (B : List (String × String)) :
    Container.names_that_need_not_be_manifested
      { c with name_path_map := A, mime_map := B }
    = c.names_that_need_not_be_manifested := rfl

theorem fsExists_of_isfile (fs : FS) (p : FPath) (h : fsIsFile fs p = true) :
    fsExists fs p = true := by
  unfold fsExists
  rw [h]
  rfl

/-- Reading a freshly written file through `raw_data` without decoding
returns exactly the written bytes (the open in mode `rb` neither
commits nor decouples). -/
theorem raw_data_fresh_read (ser : Nat → String → Bool → List Nat)
    (sniff : List Nat → String) (c2 : Container) (fs1 : FS) (name : String)
    (data : List Nat) (hnd : name ∉ c2.dirtied)
    (hbase : fsExists fs1 (name_to_abspath c2.root name).dropLast = true) :
    Container.raw_data ser sniff c2 (fsWrite fs1 (name_to_abspath c2.root name) data) name
      false
    = .ok ({ c2 with parsed_cache := aerase c2.parsed_cache name },
        fsWrite fs1 (name_to_abspath c2.root name) data, Sum.inl data) := by
  have hex2 : fsExists (fsWrite fs1 (name_to_abspath c2.root name) data)
      (name_to_abspath c2.root name).dropLast = true := by
    by_cases hpb : (name_to_abspath c2.root name).dropLast = name_to_abspath c2.root name
    · rw [hpb]
      exact fsExists_of_isfile _ _ (fsIsFile_write_self fs1 _ data)
    · rw [fsExists_write_ne fs1 _ _ data hpb]
      exact hbase
  unfold Container.raw_data Container.open_file
  dsimp only
  rw [if_neg hnd]
  dsimp only
  rw [if_pos hex2]
  rw [if_neg (show ¬ (c2.cloned = true
      ∧ ¬ (("rb" : String) = "r" ∨ ("rb" : String) = "rb")
      ∧ fsExists (fsWrite fs1 (name_to_abspath c2.root name) data)
          (name_to_abspath c2.root name) = true
      ∧ nlinks_file (fsWrite fs1 (name_to_abspath c2.root name) data)
          (name_to_abspath c2.root name) > 1) from
    fun hc => hc.2.1 (Or.inr rfl))]
  rw [if_pos (show ("rb" : String) = "r" ∨ ("rb" : String) = "rb" from Or.inr rfl)]
  rw [if_pos (fsIsFile_write_self fs1 (name_to_abspath c2.root name) data)]
  dsimp only
  rw [fsRead_write_self fs1 (name_to_abspath c2.root name) data]
  dsimp only
  rw [if_neg (show ¬ ((false : Bool) = true
      ∧ ((alookup c2.mime_map name).getD (Calibre.guess_type name) ∈ OEB_STYLES
        ∨ (alookup c2.mime_map name).getD (Calibre.guess_type name) ∈ OEB_DOCS
        ∨ hasSuffixStr ((alookup c2.mime_map name).getD (Calibre.guess_type name)) "+xml"
            = true
        ∨ hasSuffixStr ((alookup c2.mime_map name).getD (Calibre.guess_type name)) "/xml"
            = true)) from fun hc => nomatch hc.1)]

/-- C5 (amended): `add_file` rejects an existing name, a `..`-carrying
name, and a duplicate manifest href, as a `ValueError` precondition
violation.  On success the bytes are written at the name's path, the
effective media type (the explicit argument when given and non-empty,
otherwise the method guess) is recorded, outside the
need-not-be-manifested set exactly one manifest item carrying that
media type is appended whose id is fresh with the smallest
non-colliding suffix, a spine itemref is appended if and only if that
media type is HTML-family, and `raw_data` with `decode=False` returns
exactly the written bytes.  (With the default `decode=True` the claimed
equality fails for text media types: newline normalisation may change
the bytes, see the counterexample.) -/
theorem add_file_spec (ser : Nat → String → Bool → List Nat) (sniff : List Nat → String)
    (c : Container) (fs : FS) (name : String) (data : List Nat) (mt? : Option String) :
    (Container.has_name c name = true →
      isPreconditionError (Container.add_file c fs name data mt?) = true)
    ∧ (hasDotDotSub name.data = true →
      isPreconditionError (Container.add_file c fs name data mt?) = true)
    ∧ (name_to_href c.root name (some c.opf_name)
          ∈ c.opf.manifest.filterMap ManifestItem.href →
      isPreconditionError (Container.add_file c fs name data mt?) = true)
    ∧ (∀ c2 fs2, Container.add_file c fs name data mt? = .ok (c2, fs2) →
        fsRead fs2 (name_to_abspath c.root name) = some data
        ∧ alookup c2.mime_map name = some (addFileMediaType name mt?)
        ∧ (name ∉ c.names_that_need_not_be_manifested →
            c2.opf.manifest = c.opf.manifest ++
              [⟨some (freshId c.opf.allIds "id"),
                some (name_to_href c.root name (some c.opf_name)),
                some (addFileMediaType name mt?)⟩]
            ∧ freshId c.opf.allIds "id" ∉ c.opf.allIds
            ∧ (∀ k, k < freshIdIndex c.opf.allIds "id" → candId "id" k ∈ c.opf.allIds)
            ∧ (addFileMediaType name mt? ∈ OEB_DOCS →
                c2.opf.spine = c.opf.spine ++ [⟨some (freshId c.opf.allIds "id"), none⟩])
            ∧ (addFileMediaType name mt? ∉ OEB_DOCS → c2.opf.spine = c.opf.spine))
        ∧ (name ∈ c.names_that_need_not_be_manifested → c2.opf = c.opf)
        ∧ (name ∉ c.dirtied →
            Container.raw_data ser sniff c2 fs2 name false
              = .ok ({ c2 with parsed_cache := aerase c2.parsed_cache name }, fs2,
                  Sum.inl data))) := by
  refine ⟨?_, ?_, ?_, ?_⟩
  · intro h1
    unfold Container.add_file
    rw [if_pos h1]
    rfl
  · intro h2
    unfold Container.add_file
    by_cases h1 : Container.has_name c name = true
    · rw [if_pos h1]
      rfl
    · rw [if_neg h1, if_pos h2]
      rfl
  · intro h3
    unfold Container.add_file
    by_cases h1 : Container.has_name c name = true
    · rw [if_pos h1]
      rfl
    · rw [if_neg h1]
      by_cases h2 : hasDotDotSub name.data = true
      · rw [if_pos h2]
        rfl
      · rw [if_neg h2]
        dsimp only
        rw [if_pos h3]
        rfl
  · intro c2 fs2 hok
    unfold Container.add_file at hok
    by_cases h1 : Container.has_name c name = true
    · rw [if_pos h1] at hok
      cases hok
    rw [if_neg h1] at hok
    by_cases h2 : hasDotDotSub name.data = true
    · rw [if_pos h2] at hok
      cases hok
    rw [if_neg h2] at hok
    dsimp only at hok
    by_cases h3 : name_to_href c.root name (some c.opf_name)
        ∈ c.opf.manifest.filterMap ManifestItem.href
    · rw [if_pos h3] at hok
      cases hok
    rw [if_neg h3] at hok
    rw [names_need_not_update] at hok
    by_cases hman : name ∈ c.names_that_need_not_be_manifested
    · rw [if_pos hman] at hok
      injection hok with h
      injection h with hc2 hfs2
      refine ⟨?_, ?_, ?_, ?_, ?_⟩
      · rw [← hfs2]
        exact fsRead_write_self _ _ data
      · rw [← hc2]
        show alookup (ainsert c.mime_map name (addFileMediaType name mt?)) name = _
        exact alookup_ainsert c.mime_map name _
      · intro hno
        exact absurd hman hno
      · intro _
        rw [← hc2]
      · intro hnd
        rw [← hc2, ← hfs2]
        by_cases hfe : fsExists fs (name_to_abspath c.root name).dropLast = true
        · rw [if_pos hfe]
          exact raw_data_fresh_read ser sniff _ fs name data hnd hfe
        · rw [if_neg hfe]
          exact raw_data_fresh_read ser sniff _ (fsMakedirs fs _) name data hnd
            (fsExists_of_mem_dirs _ _ (fsMakedirs_dirs_self fs _))
    · rw [if_neg hman] at hok
      have hne_opf : name ≠ c.opf_name :=
        fun he => hman (he ▸ opf_name_mem_need_not c)
      by_cases hdoc : addFileMediaType name mt? ∈ OEB_DOCS
      · rw [if_pos hdoc] at hok
        injection hok with h
        injection h with hc2 hfs2
        subst hc2
        subst hfs2
        refine ⟨?_, ?_, ?_, ?_, ?_⟩
        · exact fsRead_write_self _ _ data
        · show alookup (ainsert c.mime_map name (addFileMediaType name mt?)) name = _
          exact alookup_ainsert c.mime_map name _
        · intro _
          exact ⟨rfl, freshId_not_mem _ _, freshId_smallest _ _, fun _ => rfl,
            fun hnd2 => absurd hdoc hnd2⟩
        · intro hin
          exact absurd hin hman
        · intro hnd
          have hnd2 : name ∉ (if c.opf_name ∈ c.dirtied then c.dirtied
              else c.opf_name :: c.dirtied) := by
            by_cases hd : c.opf_name ∈ c.dirtied
            · rw [if_pos hd]
              exact hnd
            · rw [if_neg hd]
              intro hmem
              rcases List.mem_cons.mp hmem with he | hm2
              · exact hne_opf he
              · exact hnd hm2
          by_cases hfe : fsExists fs (name_to_abspath c.root name).dropLast = true
          · rw [if_pos hfe]
            exact raw_data_fresh_read ser sniff _ fs name data hnd2 hfe
          · rw [if_neg hfe]
            exact raw_data_fresh_read ser sniff _ (fsMakedirs fs _) name data hnd2
              (fsExists_of_mem_dirs _ _ (fsMakedirs_dirs_self fs _))
      · rw [if_neg hdoc] at hok
        injection hok with h
        injection h with hc2 hfs2
        subst hc2
        subst hfs2
        refine ⟨?_, ?_, ?_, ?_, ?_⟩
        · exact fsRead_write_self _ _ data
        · show alookup (ainsert c.mime_map name (addFileMediaType name mt?)) name = _
          exact alookup_ainsert c.mime_map name _
        · intro _
          exact ⟨rfl, freshId_not_mem _ _, freshId_smallest _ _,
            fun hd2 => absurd hd2 hdoc, fun _ => rfl⟩
        · intro hin
          exact absurd hin hman
        · intro hnd
          have hnd2 : name ∉ (if c.opf_name ∈ c.dirtied then c.dirtied
              else c.opf_name :: c.dirtied) := by
            by_cases hd : c.opf_name ∈ c.dirtied
            · rw [if_pos hd]
              exact hnd
            · rw [if_neg hd]
              intro hmem
              rcases List.mem_cons.mp hmem with he | hm2
              · exact hne_opf he
              · exact hnd hm2
          by_cases hfe : fsExists fs (name_to_abspath c.root name).dropLast = true
          · rw [if_pos hfe]
            exact raw_data_fresh_read ser sniff _ fs name data hnd2 hfe
          · rw [if_neg hfe]
            exact raw_data_fresh_read ser sniff _ (fsMakedirs fs _) name data hnd2
              (fsExists_of_mem_dirs _ _ (fsMakedirs_dirs_self fs _))

/-- The result of adding an XHTML file with CRLF data to a fresh
container. -/
def c5add : Except PyErr (Container × FS) :=
  Container.add_file
    ⟨.oeb, ["book"], false, "content.opf", opf0, [], [], [], [], [], none, []⟩
    fsBook "a.xhtml" [120, 13, 10, 121] none

/-- Does `raw_data` with the default decoding reproduce the bytes that
`add_file` wrote? -/
def c5Check : Bool :=
  match c5add with
  | .ok (c1, fs1) =>
    match Container.raw_data ser0 sniff0 c1 fs1 "a.xhtml" true with
    | .ok (_, _, r) => rawEq r [120, 13, 10, 121]
    | .error _ => true
  | .error _ => true

/-- C5 counterexample: after `add_file(name, data)` with CRLF bytes in
an XHTML file, `raw_data(name)` (which decodes by default) does not
equal `data` — the decode step normalises line endings. -/
theorem add_file_raw_data_decode_mismatch : c5Check = false := rfl

/-! ## Claim C6 -/

/-- The method `commit_item` never raises `ValueError`; its failures are lookup
(`KeyError`) failures. -/
theorem commit_item_no_valueErr (ser : Nat → String → Bool → List Nat) (c : Container)
    (fs : FS) (name : String) (keep : Bool) :
    isPreconditionError (Container.commit_item ser c fs name keep) = false := by
  unfold Container.commit_item
  cases alookup c.parsed_cache name with
  | none => rfl
  | some art =>
    cases alookup c.mime_map name with
    | none => rfl
    | some mime =>
      dsimp only
      cases alookup c.name_path_map name with
      | none => rfl
      | some dest => rfl

/-- C6 (amended): `rename(current, new)` raises a `ValueError`
precondition violation exactly when `current` is protected, or the
destination exists on disk and `new` either equals `current` or does
not differ from it merely by case, or (neither holding) the parent
directory of the destination is an existing regular file.  In
particular an identity rename of an existing name and a rename whose
destination parent is a file are also refused, beyond the two
conditions the claim lists. -/
theorem rename_precondition_iff (ser : Nat → String → Bool → List Nat) (c : Container)
    (fs : FS) (cur new : String) :
    isPreconditionError (Container.rename ser c fs cur new) = true
      ↔ (cur ∈ c.names_that_must_not_be_changed
        ∨ (cur ∉ c.names_that_must_not_be_changed
            ∧ fsExists fs (name_to_abspath c.root new) = true
            ∧ (new = cur ∨ strLower new ≠ strLower cur))
        ∨ (cur ∉ c.names_that_must_not_be_changed
            ∧ ¬ (fsExists fs (name_to_abspath c.root new) = true
                ∧ (new = cur ∨ strLower new ≠ strLower cur))
            ∧ fsIsFile fs (name_to_abspath c.root new).dropLast = true)) := by
  by_cases hg1 : cur ∈ c.names_that_must_not_be_changed
  · have hval : isPreconditionError (Container.rename ser c fs cur new) = true := by
      unfold Container.rename
      rw [if_pos hg1]
      rfl
    rw [hval]
    exact ⟨fun _ => Or.inl hg1, fun _ => rfl⟩
  · by_cases hg2 : fsExists fs (name_to_abspath c.root new) = true
        ∧ (new = cur ∨ strLower new ≠ strLower cur)
    · have hval : isPreconditionError (Container.rename ser c fs cur new) = true := by
        unfold Container.rename
        rw [if_neg hg1, if_pos hg2]
        rfl
      rw [hval]
      exact ⟨fun _ => Or.inr (Or.inl ⟨hg1, hg2.1, hg2.2⟩), fun _ => rfl⟩
    · by_cases hg3 : fsIsFile fs (name_to_abspath c.root new).dropLast = true
      · have hval : isPreconditionError (Container.rename ser c fs cur new) = true := by
          unfold Container.rename
          rw [if_neg hg1, if_neg hg2]
          rw [if_pos hg3]
          rfl
        rw [hval]
        exact ⟨fun _ => Or.inr (Or.inr ⟨hg1, hg2, hg3⟩), fun _ => rfl⟩
      · have hval : isPreconditionError (Container.rename ser c fs cur new) = false := by
          unfold Container.rename
          rw [if_neg hg1, if_neg hg2]
          rw [if_neg hg3]
          dsimp only
          cases hci : Container.commit_item ser c
              (if fsExists fs (name_to_abspath c.root new).dropLast = true then fs
               else fsMakedirs fs (name_to_abspath c.root new).dropLast) cur false with
          | error e =>
            have hne := commit_item_no_valueErr ser c
              (if fsExists fs (name_to_abspath c.root new).dropLast = true then fs
               else fsMakedirs fs (name_to_abspath c.root new).dropLast) cur false
            rw [hci] at hne
            exact hne
          | ok p =>
            obtain ⟨c1, fs2⟩ := p
            dsimp only
            by_cases hold : fsIsFile fs2 (name_to_abspath c.root cur) = true
            · rw [if_pos hold]
              rfl
            · rw [if_neg hold]
              rfl
        rw [hval]
        constructor
        · intro h
          cases h
        · intro hr
          exfalso
          rcases hr with h | h | h
          · exact hg1 h
          · exact hg2 ⟨h.2.1, h.2.2⟩
          · exact hg3 h.2.2

/-- A container with one plain file `a` whose sibling `d` is a file,
not a directory. -/
def c6demo : Container :=
  ⟨.oeb, ["book"], false, "content.opf", opf0, [("a", ["book", "a"])], [], [], [], [],
   none, []⟩

/-- The matching filesystem: `book/a` and `book/d` are regular files. -/
def fs6 : FS :=
  ⟨[(["book", "a"], 0), (["book", "d"], 1)], fun _ => [], [[], ["book"]], 2⟩

/-- C6 counterexample: renaming to a destination whose parent is a
file, and the identity rename of an existing name, are both refused as
precondition violations although the name is not protected and (in the
first case) the destination does not exist. -/
theorem rename_counterexample :
    isPreconditionError (Container.rename ser0 c6demo fs6 "a" "d/x") = true
    ∧ "a" ∉ c6demo.names_that_must_not_be_changed
    ∧ fsExists fs6 (name_to_abspath c6demo.root "d/x") = false
    ∧ isPreconditionError (Container.rename ser0 c6demo fs6 "a" "a") = true :=
  ⟨rfl, by decide, rfl, rfl⟩

theorem rename_precondition_iff_witness :
    isPreconditionError (Container.rename ser0 c6demo fs6 "content.opf" "b") = false := by
  have h := rename_precondition_iff ser0 c6demo fs6 "content.opf" "b"
  cases hv : isPreconditionError (Container.rename ser0 c6demo fs6 "content.opf" "b") with
  | false => rfl
  | true =>
    exfalso
    rw [hv] at h
    rcases h.mp rfl with h2 | h2 | h2
    · exact absurd h2 (by decide)
    · exact absurd h2.2.1 (by decide)
    · exact absurd h2.2.2 (by decide)

/-! ## Claim C7 -/

/-- C7: the open-time checks of the AZW3 binding reject Topaz files,
unparseable headers, DRM-encrypted files, KF8-less files and joint
Mobi6+KF8 files, and the DRM error is distinguishable from every
invalid-book error. -/
theorem azw3_open_check_errors (inp : MobiInput) :
    (inp.first3 = [84, 80, 90] →
      azw3_open_check inp
        = .error (.invalidBook "This is not a MOBI file. It is a Topaz file."))
    ∧ (inp.first3 ≠ [84, 80, 90] → inp.header = none →
      azw3_open_check inp = .error (.invalidBook "This is not a MOBI file."))
    ∧ (∀ h, inp.first3 ≠ [84, 80, 90] → inp.header = some h → h.encryption_type ≠ 0 →
      azw3_open_check inp = .error .drm)
    ∧ (∀ h, inp.first3 ≠ [84, 80, 90] → inp.header = some h → h.encryption_type = 0 →
        h.kf8_type = none →
      azw3_open_check inp
        = .error (.invalidBook "This MOBI file does not contain a KF8 format book."))
    ∧ (∀ h, inp.first3 ≠ [84, 80, 90] → inp.header = some h → h.encryption_type = 0 →
        h.kf8_type = some "joint" →
      azw3_open_check inp
        = .error (.invalidBook "This MOBI file contains both KF8 and older Mobi6 data."))
    ∧ (∀ m, PyErr.drm ≠ PyErr.invalidBook m) := by
  refine ⟨?_, ?_, ?_, ?_, ?_, ?_⟩
  · intro h1
    unfold azw3_open_check
    rw [if_pos h1]
  · intro h1 h2
    unfold azw3_open_check
    rw [if_neg h1, h2]
  · intro h h1 h2 h3
    unfold azw3_open_check
    rw [if_neg h1, h2]
    dsimp only
    rw [if_pos h3]
  · intro h h1 h2 h3 h4
    unfold azw3_open_check
    rw [if_neg h1, h2]
    dsimp only
    rw [if_neg (show ¬ h.encryption_type ≠ 0 from fun hx => hx h3), h4]
  · intro h h1 h2 h3 h4
    unfold azw3_open_check
    rw [if_neg h1, h2]
    dsimp only
    rw [if_neg (show ¬ h.encryption_type ≠ 0 from fun hx => hx h3), h4]
    rfl
  · intro m he
    cases he

theorem azw3_open_check_errors_witness :
    azw3_open_check ⟨[84, 80, 90], none⟩
      = .error (.invalidBook "This is not a MOBI file. It is a Topaz file.") :=
  (azw3_open_check_errors ⟨[84, 80, 90], none⟩).1 rfl

/-! ## Claim C8 -/

/-- An `EncryptionMethod` with an algorithm other than the Adobe and
IDPF obfuscation schemes anywhere in the entry list makes the first
loop of `process_encryption` raise `DRMError`. -/
theorem collectFonts_drm (root : List String) (npm : List (String × FPath)) :
    ∀ l : List EncMethodEntry,
    (∃ em ∈ l, em.algorithm ≠ ADOBE_OBFUSCATION ∧ em.algorithm ≠ IDPF_OBFUSCATION) →
    collectFonts root npm l = .error .drm := by
  intro l
  induction l with
  | nil =>
    rintro ⟨em, hmem, _⟩
    exact absurd hmem (List.not_mem_nil em)
  | cons em rest ih =>
    rintro ⟨em2, hmem, hbad⟩
    by_cases halg : em.algorithm = ADOBE_OBFUSCATION ∨ em.algorithm = IDPF_OBFUSCATION
    · have hrest : ∃ em3 ∈ rest,
          em3.algorithm ≠ ADOBE_OBFUSCATION ∧ em3.algorithm ≠ IDPF_OBFUSCATION := by
        rcases List.mem_cons.mp hmem with he | hm2
        · exfalso
          rw [he] at hbad
          rcases halg with ha | ha
          · exact hbad.1 ha
          · exact hbad.2 ha
        · exact ⟨em2, hm2, hbad⟩
      unfold collectFonts
      rw [if_pos halg]
      cases em.cipherURI with
      | none => exact ih hrest
      | some uri =>
        dsimp only
        cases href_to_name root uri none with
        | none => exact ih hrest
        | some nm =>
          dsimp only
          cases alookup npm nm with
          | none => exact ih hrest
          | some _ =>
            dsimp only
            rw [ih hrest]
    · unfold collectFonts
      rw [if_neg halg]

/-- C8: opening an EPUB whose `META-INF/encryption.xml` names an
algorithm other than the Adobe or IDPF obfuscation URIs aborts with a
DRM error. -/
theorem encryption_unknown_algorithm_drm (sha1 : String → List Nat)
    (uuidP : String → Option (List Nat))
    (decF : List Nat → String → List Nat → List Nat)
    (c : Container) (fs : FS) (entries : List EncMethodEntry)
    (henc : c.encryption = some entries)
    (hnpm : (alookup c.name_path_map "META-INF/encryption.xml").isSome = true)
    (em : EncMethodEntry) (hmem : em ∈ entries)
    (hbad : em.algorithm ≠ ADOBE_OBFUSCATION ∧ em.algorithm ≠ IDPF_OBFUSCATION) :
    Container.init_encryption sha1 uuidP decF c fs = .error .drm := by
  unfold Container.init_encryption
  rw [if_pos hnpm]
  unfold Container.process_encryption
  rw [henc]
  dsimp only
  rw [collectFonts_drm c.root c.name_path_map entries ⟨em, hmem, hbad⟩]

/-- A stand-in for `hashlib.sha1(...).digest()`. -/
def sha1demo : String → List Nat := fun _ => [5]

/-- A stand-in for `uuid.UUID(...).bytes` that always fails to parse. -/
def uuidDemo : String → Option (List Nat) := fun _ => none

/-- A stand-in for `decrypt_font` that leaves the bytes unchanged. -/
def decFontDemo : List Nat → String → List Nat → List Nat := fun _ _ b => b

/-- An EPUB container whose encryption document carries an unknown
algorithm. -/
def c8demo : Container :=
  ⟨.epub, ["book"], false, "content.opf", opf0,
   [("META-INF/encryption.xml", ["book", "META-INF", "encryption.xml"])], [], [], [], [],
   some [⟨"http://unknown.example/alg", none⟩], []⟩

theorem encryption_unknown_algorithm_drm_witness :
    Container.init_encryption sha1demo uuidDemo decFontDemo c8demo fsBook
      = .error .drm :=
  encryption_unknown_algorithm_drm sha1demo uuidDemo decFontDemo c8demo fsBook
    [⟨"http://unknown.example/alg", none⟩] rfl (by decide)
    ⟨"http://unknown.example/alg", none⟩ (by decide) (by decide)

/-! ## Claim C9 -/

/-- C9 (amended): the method `Container.guess_type` never returns
`text/html` (it maps it to the XHTML type), and `add_file` records the
method's answer for an unspecified media type — but `generate_item`
consults the module-level `guess_type`, so its generated items carry
`text/html` for `.html` names. -/
theorem guess_type_never_html (name : String) :
    Container.guess_type name ≠ "text/html"
    ∧ (Calibre.guess_type name = "text/html" →
        Container.guess_type name = "application/xhtml+xml")
    ∧ (∀ c fs data c2 fs2, Container.add_file c fs name data none = .ok (c2, fs2) →
        alookup c2.mime_map name = some (Container.guess_type name))
    ∧ (∀ c fs idp c2 fs2 item,
        Container.generate_item c fs name idp none = .ok (c2, fs2, item) →
        item.mediaType = some (Calibre.guess_type name)) := by
  refine ⟨?_, ?_, ?_, ?_⟩
  · unfold Container.guess_type
    by_cases h : Calibre.guess_type name = "text/html"
    · rw [if_pos h]
      decide
    · rw [if_neg h]
      exact h
  · intro h
    unfold Container.guess_type
    rw [if_pos h]
  · intro c fs data c2 fs2 hok
    unfold Container.add_file at hok
    by_cases h1 : Container.has_name c name = true
    · rw [if_pos h1] at hok
      cases hok
    rw [if_neg h1] at hok
    by_cases h2 : hasDotDotSub name.data = true
    · rw [if_pos h2] at hok
      cases hok
    rw [if_neg h2] at hok
    dsimp only at hok
    by_cases h3 : name_to_href c.root name (some c.opf_name)
        ∈ c.opf.manifest.filterMap ManifestItem.href
    · rw [if_pos h3] at hok
      cases hok
    rw [if_neg h3] at hok
    rw [names_need_not_update] at hok
    by_cases hman : name ∈ c.names_that_need_not_be_manifested
    · rw [if_pos hman] at hok
      injection hok with h
      injection h with hc2 hfs2
      subst hc2
      show alookup (ainsert c.mime_map name (Container.guess_type name)) name = _
      exact alookup_ainsert c.mime_map name _
    · rw [if_neg hman] at hok
      by_cases hdoc : addFileMediaType name none ∈ OEB_DOCS
      · rw [if_pos hdoc] at hok
        injection hok with h
        injection h with hc2 hfs2
        subst hc2
        show alookup (ainsert c.mime_map name (Container.guess_type name)) name = _
        exact alookup_ainsert c.mime_map name _
      · rw [if_neg hdoc] at hok
        injection hok with h
        injection h with hc2 hfs2
        subst hc2
        show alookup (ainsert c.mime_map name (Container.guess_type name)) name = _
        exact alookup_ainsert c.mime_map name _
  · intro c fs idp c2 fs2 item hok
    unfold Container.generate_item at hok
    dsimp only at hok
    split at hok
    · cases hok
    · injection hok with h
      injection h with hc2 h2
      injection h2 with hfs2 hitem
      subst hitem
      rfl

/-- Calling `generate_item` on a fresh container with an `.html` name and no
explicit media type. -/
def c9gen : Except PyErr (Container × FS × ManifestItem) :=
  Container.generate_item
    ⟨.oeb, ["book"], false, "content.opf", opf0, [], [], [], [], [], none, []⟩
    fsBook "x.html" none none

/-- The media type of a generated manifest item. -/
def itemMimeOf : Except PyErr (Container × FS × ManifestItem) → Option String
  | .ok (_, _, item) => item.mediaType
  | .error _ => none

/-- C9 counterexample: `generate_item` uses the module-level
`guess_type`, so the generated item for an `.html` name carries
`text/html`, not the XHTML type the method `Container.guess_type`
would return. -/
theorem generate_item_emits_text_html :
    itemMimeOf c9gen = some "text/html"
    ∧ Container.guess_type "x.html" = "application/xhtml+xml"
    ∧ some "text/html" ≠ some (Container.guess_type "x.html") :=
  ⟨rfl, rfl, by decide⟩

theorem guess_type_never_html_witness :
    Container.guess_type "w.html" = "application/xhtml+xml" :=
  (guess_type_never_html "w.html").2.1 rfl

/-! ## Claim C10 -/

theorem fsIsFile_unlink_self (fs : FS) (p : FPath) :
    fsIsFile (fsUnlink fs p) p = false := by
  unfold fsIsFile fsUnlink fsInode
  show (alookup (aerase fs.files p) p).isSome = false
  rw [alookup_aerase]
  rfl

theorem not_mem_filter_ne (l : List String) (name : String) :
    name ∉ l.filter (fun x => x ≠ name) := by
  intro h
  have h2 := (List.mem_filter.mp h).2
  simp at h2

/-- Did an operation succeed? -/
def exceptOk {α : Type} : Except PyErr α → Bool
  | .ok _ => true
  | .error _ => false

/-- Marking a container dirty under a condition never changes the
name-to-path map. -/
theorem ite_dirty_name_path_map (P : Prop) [Decidable P] (x : Container) (n : String) :
    (if P then Container.dirty x n else x).name_path_map = x.name_path_map := by
  by_cases h : P
  · rw [if_pos h]
    rfl
  · rw [if_neg h]

/-- The body shared by every `remove_item` binding purges the removed
name from the maps, the cache and the dirtied set, and unlinks its
file. -/
theorem remove_item_base_post (c : Container) (fs : FS) (name : String) (rfg : Bool) :
    alookup (Container.remove_item_base c fs name rfg).1.name_path_map name = none
    ∧ alookup (Container.remove_item_base c fs name rfg).1.mime_map name = none
    ∧ alookup (Container.remove_item_base c fs name rfg).1.parsed_cache name = none
    ∧ name ∉ (Container.remove_item_base c fs name rfg).1.dirtied
    ∧ ∀ path, alookup c.name_path_map name = some path → path ≠ [] →
        fsExists fs path = true →
        fsIsFile (Container.remove_item_base c fs name rfg).2 path = false := by
  unfold Container.remove_item_base
  dsimp only
  refine ⟨?_, ?_, ?_, ?_, ?_⟩
  · exact alookup_aerase _ name
  · exact alookup_aerase _ name
  · exact alookup_aerase _ name
  · exact not_mem_filter_ne _ name
  · intro path hpath hne hex
    rw [ite_dirty_name_path_map]
    show fsIsFile (match alookup c.name_path_map name with
      | some path2 => if path2 ≠ [] ∧ fsExists fs path2 = true then fsUnlink fs path2 else fs
      | none => fs) path = false
    rw [hpath]
    dsimp only
    rw [if_pos ⟨hne, hex⟩]
    exact fsIsFile_unlink_self fs path

/-- C10: `remove_item` never raises a precondition violation — it does
not consult `names_that_must_not_be_removed` — and on the success path
(always reached except when the EPUB binding must parse an unavailable
encryption document for an obfuscated font) the name is deleted from
disk and purged from `name_path_map`, `mime_map`, `parsed_cache` and
`dirtied`. -/
theorem remove_item_never_precondition_error (c : Container) (fs : FS) (name : String)
    (rfg : Bool) :
    isPreconditionError (Container.remove_item c fs name rfg) = false
    ∧ ((c.kind = .epub →
          (alookup c.obfuscated_fonts name).isSome = true →
          name ≠ "META-INF/encryption.xml" →
          c.encryption ≠ none) →
        exceptOk (Container.remove_item c fs name rfg) = true)
    ∧ (∀ c2 fs2, Container.remove_item c fs name rfg = .ok (c2, fs2) →
        alookup c2.name_path_map name = none
        ∧ alookup c2.mime_map name = none
        ∧ alookup c2.parsed_cache name = none
        ∧ name ∉ c2.dirtied
        ∧ (∀ path, alookup c.name_path_map name = some path → path ≠ [] →
            fsExists fs path = true → fsIsFile fs2 path = false)) := by
  refine ⟨?_, ?_, ?_⟩
  · unfold Container.remove_item
    dsimp only
    split_ifs with h1 h2 h3 h4
    · try dsimp only
      cases hencv : c.encryption with
      | none => rfl
      | some entries => rfl
    · rfl
    · try dsimp only
      cases hencv : c.encryption with
      | none => rfl
      | some entries => rfl
    · rfl
    · rfl
  · intro hsucc
    unfold Container.remove_item
    dsimp only
    split_ifs with h1 h2 h3 h4
    · exact (nomatch h3)
    · rfl
    · try dsimp only
      cases hencv : c.encryption with
      | none =>
        exfalso
        exact hsucc h1 h4 h2 hencv
      | some entries => rfl
    · rfl
    · rfl
  · intro c2 fs2 hok
    unfold Container.remove_item at hok
    dsimp only at hok
    split_ifs at hok with h1 h2 h3 h4
    · exact (nomatch h3)
    · have hc2 : (Container.remove_item_base
          { c with obfuscated_fonts := ([] : List (String × String × List Nat)) }
          fs name rfg).1 = c2 := by
        injection hok with h
        exact congrArg Prod.fst h
      have hfs2 : (Container.remove_item_base
          { c with obfuscated_fonts := ([] : List (String × String × List Nat)) }
          fs name rfg).2 = fs2 := by
        injection hok with h
        exact congrArg Prod.snd h
      rw [← hc2, ← hfs2]
      obtain ⟨p1, p2, p3, p4, p5⟩ := remove_item_base_post
        { c with obfuscated_fonts := ([] : List (String × String × List Nat)) }
        fs name rfg
      exact ⟨p1, p2, p3, p4, p5⟩
    · cases hencv : c.encryption with
      | none =>
        rw [hencv] at hok
        cases hok
      | some entries =>
        rw [hencv] at hok
        dsimp only at hok
        split_ifs at hok with h5
        · have hc2 : (Container.remove_item_base
              (Container.dirty
                { c with
                  obfuscated_fonts := aerase c.obfuscated_fonts name,
                  encryption := some (entries.filter (fun em =>
                    ¬ ((em.algorithm = ADOBE_OBFUSCATION
                        ∨ em.algorithm = IDPF_OBFUSCATION)
                      && (match em.cipherURI with
                          | some uri => href_to_name c.root uri none = some name
                          | none => false)))) }
                "META-INF/encryption.xml")
              fs name rfg).1 = c2 := by
            injection hok with h
            exact congrArg Prod.fst h
          have hfs2 : (Container.remove_item_base
              (Container.dirty
                { c with
                  obfuscated_fonts := aerase c.obfuscated_fonts name,
                  encryption := some (entries.filter (fun em =>
                    ¬ ((em.algorithm = ADOBE_OBFUSCATION
                        ∨ em.algorithm = IDPF_OBFUSCATION)
                      && (match em.cipherURI with
                          | some uri => href_to_name c.root uri none = some name
                          | none => false)))) }
                "META-INF/encryption.xml")
              fs name rfg).2 = fs2 := by
            injection hok with h
            exact congrArg Prod.snd h
          rw [← hc2, ← hfs2]
          obtain ⟨p1, p2, p3, p4, p5⟩ := remove_item_base_post
            (Container.dirty
              { c with
                obfuscated_fonts := aerase c.obfuscated_fonts name,
                encryption := some (entries.filter (fun em =>
                  ¬ ((em.algorithm = ADOBE_OBFUSCATION
                      ∨ em.algorithm = IDPF_OBFUSCATION)
                    && (match em.cipherURI with
                        | some uri => href_to_name c.root uri none = some name
                        | none => false)))) }
              "META-INF/encryption.xml")
            fs name rfg
          exact ⟨p1, p2, p3, p4, p5⟩
        · have hc2 : (Container.remove_item_base
              { c with
                obfuscated_fonts := aerase c.obfuscated_fonts name,
                encryption := some (entries.filter (fun em =>
                  ¬ ((em.algorithm = ADOBE_OBFUSCATION
                      ∨ em.algorithm = IDPF_OBFUSCATION)
                    && (match em.cipherURI with
                        | some uri => href_to_name c.root uri none = some name
                        | none => false)))) }
              fs name rfg).1 = c2 := by
            injection hok with h
            exact congrArg Prod.fst h
          have hfs2 : (Container.remove_item_base
              { c with
                obfuscated_fonts := aerase c.obfuscated_fonts name,
                encryption := some (entries.filter (fun em =>
                  ¬ ((em.algorithm = ADOBE_OBFUSCATION
                      ∨ em.algorithm = IDPF_OBFUSCATION)
                    && (match em.cipherURI with
                        | some uri => href_to_name c.root uri none = some name
                        | none => false)))) }
              fs name rfg).2 = fs2 := by
            injection hok with h
            exact congrArg Prod.snd h
          rw [← hc2, ← hfs2]
          obtain ⟨p1, p2, p3, p4, p5⟩ := remove_item_base_post
            { c with
              obfuscated_fonts := aerase c.obfuscated_fonts name,
              encryption := some (entries.filter (fun em =>
                ¬ ((em.algorithm = ADOBE_OBFUSCATION
                    ∨ em.algorithm = IDPF_OBFUSCATION)
                  && (match em.cipherURI with
                      | some uri => href_to_name c.root uri none = some name
                      | none => false)))) }
            fs name rfg
          exact ⟨p1, p2, p3, p4, p5⟩
    · have hc2 : (Container.remove_item_base c fs name rfg).1 = c2 := by
        injection hok with h
        exact congrArg Prod.fst h
      have hfs2 : (Container.remove_item_base c fs name rfg).2 = fs2 := by
        injection hok with h
        exact congrArg Prod.snd h
      rw [← hc2, ← hfs2]
      exact remove_item_base_post c fs name rfg
    · have hc2 : (Container.remove_item_base c fs name rfg).1 = c2 := by
        injection hok with h
        exact congrArg Prod.fst h
      have hfs2 : (Container.remove_item_base c fs name rfg).2 = fs2 := by
        injection hok with h
        exact congrArg Prod.snd h
      rw [← hc2, ← hfs2]
      exact remove_item_base_post c fs name rfg

/-- An EPUB container holding the protected `META-INF/container.xml`. -/
def c10demo : Container :=
  ⟨.epub, ["book"], false, "content.opf", opf0,
   [("META-INF/container.xml", ["book", "META-INF", "container.xml"])], [], [], [], [],
   none, []⟩

theorem remove_item_never_precondition_error_witness :
    exceptOk (Container.remove_item c10demo fsBook "META-INF/container.xml" true)
      = true :=
  (remove_item_never_precondition_error c10demo fsBook "META-INF/container.xml" true).2.1
    (by decide)

/-! ## Witness data for the copy-on-write claim -/

/-- A cloned container whose single dirtied name lives at `clone/f`. -/
def c1demo : Container :=
  ⟨.oeb, ["clone"], true, "content.opf", opf0,
   [("x", ["clone", "f"])], [("x", "text/css")], [("x", 3)], ["x"], [], none, []⟩

/-- A filesystem where `clone/f` and `src/f` are hard links to the same
inode. -/
def fs1demo : FS :=
  ⟨[(["clone", "f"], 0), (["src", "f"], 0)], fun _ => [7], [[], ["clone"], ["src"]], 1⟩

/-- The container of a successful result (a sentinel on failure). -/
def resultC (r : Except PyErr (Container × FS)) : Container :=
  match r with
  | .ok (c, _) => c
  | .error _ => c2demo

/-- The filesystem of a successful result (a sentinel on failure). -/
def resultFS (r : Except PyErr (Container × FS)) : FS :=
  match r with
  | .ok (_, fs) => fs
  | .error _ => fsBook

theorem cloned_writes_witness :
    fsRead (resultFS (Container.commit_item ser0 c1demo fs1demo "x" false)) ["src", "f"]
      = fsRead fs1demo ["src", "f"] := by
  have h := (cloned_container_writes_preserve_other_files ser0 c1demo fs1demo "x"
    ["src", "f"] ⟨by decide, by decide, by decide⟩ rfl).1
  refine h false (resultC (Container.commit_item ser0 c1demo fs1demo "x" false))
    (resultFS (Container.commit_item ser0 c1demo fs1demo "x" false)) rfl ?_
  intro dest hd
  rw [show alookup c1demo.name_path_map "x" = some ["clone", "f"] from rfl] at hd
  injection hd with h2
  rw [← h2]
  decide

theorem add_file_spec_witness :
    alookup (resultC (Container.add_file c2demo fsBook "n.xyz" [7]
        (some "application/x-custom"))).mime_map "n.xyz"
      = some "application/x-custom"
    ∧ (resultC (Container.add_file c2demo fsBook "p.xyz" [7]
        (some "text/html"))).opf.spine
      = c2demo.opf.spine ++ [⟨some (freshId c2demo.opf.allIds "id"), none⟩] := by
  constructor
  · have h := (add_file_spec ser0 sniff0 c2demo fsBook "n.xyz" [7]
      (some "application/x-custom")).2.2.2
      (resultC (Container.add_file c2demo fsBook "n.xyz" [7]
        (some "application/x-custom")))
      (resultFS (Container.add_file c2demo fsBook "n.xyz" [7]
        (some "application/x-custom")))
      rfl
    exact h.2.1
  · have h := (add_file_spec ser0 sniff0 c2demo fsBook "p.xyz" [7]
      (some "text/html")).2.2.2
      (resultC (Container.add_file c2demo fsBook "p.xyz" [7] (some "text/html")))
      (resultFS (Container.add_file c2demo fsBook "p.xyz" [7] (some "text/html")))
      rfl
    exact (h.2.2.1 (by decide)).2.2.2.1 (by decide)

end Calibre
